import Mathlib

/-!
Verification of tc: log tailer, word wrap, chat log and jitter renderer.

A shallow embedding of `src/main.c` and the properties checked against it.

Modelling conventions.

* A C string is the list of its character codes (`CStr`), without the
  terminating NUL. Bytes read from the file are naturals as well. A byte of
  128 or more, which `(int)word[i]` may read as a negative number, takes the
  same branch of every test in the program either way.
* C `int`, `off_t` and `time_t` values are mathematical integers; the sizes
  and sums that occur stay far below the machine limits for the inputs the
  program reads.
* `malloc`, `calloc` and `realloc` are taken to succeed. The fixed buffers are
  not part of the data model; `read_loop_emitted_length` shows that every line
  read from the file has at most 1023 characters and `wrap_text_buffer_fits`
  that the 1024-byte line buffer of `wrap_text` is then never overrun.
* The glyph table `glyphs[128]` filled by `load_font` is a parameter
  `glyphs : Nat → GMap`; the colours `c1`, `c2` are parameters as well.
* The value of the `float` variable `RATE` is a rational number; the constants
  1.1 and 0.01 are the rationals 11/10 and 1/100 and the decrement is exact.
  The arithmetic of the jitter offsets (main.c 465-466) is binary32: the
  conversion of the remainder to `float`, the quotient and the difference are
  rounded by `f32`, to 24 significant bits, ties to even.
* `rand()` is a parameter: a stream `rand : Nat → Int` of values together
  with the index of the next value to hand out.
* The functions return, next to the globals they change, a trace of what they
  did: the strings handed to `add_chat_entry`, the points drawn.
-/

namespace TC

/-! ## Constants -/

/-- Window width `WW`. -/
def WW : Int := 751
/-- Upper bound on the number of stored chat entries. -/
def MAX_ENTRIES : Nat := 50
/-- Horizontal margin `MARGIN_X`. -/
def MARGIN_X : Int := 7
/-- Height of one rendered row. -/
def LINE_HEIGHT : Int := 20
/-- Wrap budget `WW - 2 * MARGIN_X`. -/
def MAX_WRAP_WIDTH : Int := WW - 2 * MARGIN_X
/-- Fixed advance of a space. -/
def SPACE_ADVANCE : Int := 7
/-- Value `RATE` is reset to when the log file changes. -/
def RATE_RESET : ℚ := 20

/-! ## Data model -/

/-- C string: the character codes before the terminating NUL. -/
abbrev CStr := List Nat

/-- Struct `Pixel`: one visible pixel of a glyph. -/
structure Pixel where
  x : Int
  y : Int
  r : Nat
  g : Nat
  b : Nat
  a : Nat
deriving DecidableEq, Repr

/-- Struct `GMap`: a glyph; `pixels = none` stands for the NULL pointer. -/
structure GMap where
  width : Int
  height : Int
  num_pixels : Int
  pixels : Option (List Pixel)
  advance : Int
deriving DecidableEq, Repr

/-- Struct `ChatEntry`. -/
structure ChatEntry where
  original_line : CStr
  wrapped_lines : List CStr
  num_wrapped : Int
  rendered_height : Int
deriving DecidableEq, Repr

/-! ## get_advance and wrap_text -/

/-- Function `get_advance` (main.c 85-93). -/
def get_advance (glyphs : Nat → GMap) (ch_code : Nat) : Int :=
  if ch_code = 32 then SPACE_ADVANCE
  else if 32 ≤ ch_code ∧ ch_code < 127 ∧ (glyphs ch_code).advance > 0 then
    (glyphs ch_code).advance
  else 20

/-- Delimiter set `" \t\n"` handed to `strtok`. -/
def isDelim (c : Nat) : Bool := c == 32 || c == 9 || c == 10

/-- One call of `strtok` on the unread part `s` of the copy: skip leading
delimiters; at the end of the string return `none` (NULL); otherwise return the
run of non-delimiters and what follows the delimiter that ended it. -/
def strtok (s : CStr) : Option (CStr × CStr) :=
  match s.dropWhile isDelim with
  | [] => none
  | c :: cs =>
    some ((c :: cs).takeWhile (fun d => !isDelim d),
          ((c :: cs).dropWhile (fun d => !isDelim d)).drop 1)

/-- Inner `for` loop of `wrap_text` (main.c 123-127): sum of the advances. -/
def word_advance (glyphs : Nat → GMap) (word : CStr) : Int :=
  word.foldl (fun acc ch_code => acc + get_advance glyphs ch_code) 0

/-- Local state of `wrap_text`: the lines pushed so far, the line buffer
(`current_line_len` is its length) and its accumulated advance. -/
structure WrapState where
  lines : List CStr
  current_line : CStr
  current_advance : Int
deriving DecidableEq, Repr

/-- Body of the `do ... while` loop of `wrap_text` for one word
(main.c 122-159). -/
def wrap_step (glyphs : Nat → GMap) (max_width_pixels : Int) (st : WrapState)
    (word : CStr) : WrapState :=
  let wa := word_advance glyphs word
  let space_advance : Int := if st.current_line.length > 0 then SPACE_ADVANCE else 0
  if st.current_advance + space_advance + wa > max_width_pixels
      ∧ st.current_line.length > 0 then
    { lines := st.lines ++ [st.current_line],
      current_line := word,
      current_advance := wa }
  else if st.current_line.length > 0 then
    { lines := st.lines,
      current_line := st.current_line ++ [32] ++ word,
      current_advance := st.current_advance + SPACE_ADVANCE + wa }
  else
    { lines := st.lines,
      current_line := st.current_line ++ word,
      current_advance := st.current_advance + wa }

/-- The `do ... while ((word = strtok(NULL, ...)) != NULL)` loop: run the body
on `word`, then ask `strtok` for the next word of `rest`. The fuel bounds the
number of further words; the length of `rest` is always enough. -/
def wrap_loop (glyphs : Nat → GMap) (max_width_pixels : Int) :
    Nat → WrapState → CStr → CStr → WrapState
  | 0, st, word, _ => wrap_step glyphs max_width_pixels st word
  | fuel + 1, st, word, rest =>
    match strtok rest with
    | none => wrap_step glyphs max_width_pixels st word
    | some (w, r) =>
      wrap_loop glyphs max_width_pixels fuel
        (wrap_step glyphs max_width_pixels st word) w r

/-- Function `wrap_text` (main.c 95-178); the result is the array
`*wrapped_lines_out`, of length `*num_wrapped_out`. -/
def wrap_text (glyphs : Nat → GMap) (text : CStr) (max_width_pixels : Int) :
    List CStr :=
  if text.length = 0 then []
  else
    match strtok text with
    | none => []
    | some (word, rest) =>
      let st := wrap_loop glyphs max_width_pixels rest.length
        { lines := [], current_line := [], current_advance := 0 } word rest
      if st.current_line.length > 0 then st.lines ++ [st.current_line]
      else st.lines

/-- Initial local state of `wrap_text`: no line pushed, empty line buffer. -/
def wrap_init : WrapState :=
  { lines := [], current_line := [], current_advance := 0 }

/-- The final push of `wrap_text` (main.c 162-174): the pending line is
appended when it is not empty. -/
def wrap_flush (st : WrapState) : List CStr :=
  if st.current_line.length > 0 then st.lines ++ [st.current_line] else st.lines

/-- Words of a text as the claims describe them: the maximal runs of characters
other than space, tab and newline (split at every delimiter, drop the empty
pieces). -/
def inputWords (text : CStr) : List CStr :=
  (text.splitOnP isDelim).filter (fun w => w ≠ [])

/-- Pixel width of a string: the sum of `get_advance` over its characters. -/
def pixel_width (glyphs : Nat → GMap) (s : CStr) : Int :=
  (s.map (get_advance glyphs)).sum

/-- Words found on the output lines: every line split at its single spaces,
the pieces concatenated in order. -/
def linesWords (lines : List CStr) : List CStr :=
  (lines.map (fun l => l.splitOn 32)).flatten

/-- Invariant of the wrap loop for the width bound: the running advance is the
pixel width of the line buffer, and the pushed lines and the buffer fit. -/
def WidthInv (glyphs : Nat → GMap) (max_width_pixels : Int) (st : WrapState) : Prop :=
  st.current_advance = pixel_width glyphs st.current_line ∧
  (∀ l ∈ st.lines, pixel_width glyphs l ≤ max_width_pixels) ∧
  (st.current_line ≠ [] → pixel_width glyphs st.current_line ≤ max_width_pixels)

/-- Words held by a wrap state: those of the pushed lines, then those of the
line buffer when it is in use. -/
def stateWords (st : WrapState) : List CStr :=
  linesWords st.lines ++ (if st.current_line = [] then [] else st.current_line.splitOn 32)

/-- Bytes taken by a list of words when each is followed by one separator. -/
def joinedLen (ws : List CStr) : Nat := (ws.map (fun w => w.length + 1)).sum

/-- Invariant of the wrap loop for the size of the line buffer: every pushed
line and the pending line, with one more byte, fit in `bound` bytes. -/
def BufInv (bound : Nat) (st : WrapState) : Prop :=
  (∀ l ∈ st.lines, l.length + 1 ≤ bound) ∧
  (st.current_line ≠ [] → st.current_line.length + 1 ≤ bound)

/-- First word of an output line: its characters before the first space. -/
def firstWord (line : CStr) : CStr := line.takeWhile (fun c => c != 32)

/-- Greedy relation between an output line `A` and the line `B` after it: the
first word of `B` did not fit on `A`. -/
def NoFit (glyphs : Nat → GMap) (max_width_pixels : Int) (A B : CStr) : Prop :=
  pixel_width glyphs A + SPACE_ADVANCE + pixel_width glyphs (firstWord B) > max_width_pixels

/-- Invariant of the wrap loop for greediness: the running advance is the pixel
width of the line buffer, lines are pushed only once the buffer is in use, and
along the pushed lines followed by the buffer every line starts with a word
that did not fit on the line before. -/
def GreedyInv (glyphs : Nat → GMap) (max_width_pixels : Int) (st : WrapState) : Prop :=
  st.current_advance = pixel_width glyphs st.current_line ∧
  (st.current_line = [] → st.lines = []) ∧
  List.Chain' (NoFit glyphs max_width_pixels) (st.lines ++ [st.current_line])

/-- The words joined by single spaces. -/
def joinWords (ws : List CStr) : CStr := [32].intercalate ws

/-! ## The chat log -/

/-- Globals `chat_log` and `chat_log_capacity`; `chat_log` lists the slots
`chat_log[0 .. chat_log_size)`, so `chat_log_size` is its length. -/
structure ChatLog where
  chat_log : List ChatEntry
  chat_log_capacity : Nat
deriving DecidableEq, Repr

/-- Global `chat_log_size`. -/
def ChatLog.chat_log_size (s : ChatLog) : Nat := s.chat_log.length

/-- The chat log at program start: `chat_log = NULL`, size and capacity 0. -/
def empty_chat_log : ChatLog := { chat_log := [], chat_log_capacity := 0 }

/-- The shift loop of the eviction (main.c 220-222), `k` iterations left from
index `i`: `chat_log[i] = chat_log[i + 1]`. -/
def shift_loop : Nat → Nat → List ChatEntry → List ChatEntry
  | 0, _, log => log
  | k + 1, i, log =>
    shift_loop k (i + 1)
      (match log[i + 1]? with
       | some e => log.set i e
       | none => log)

/-- Function `add_chat_entry` (main.c 180-227) with the limit `MAX_ENTRIES` as a
parameter. -/
def add_chat_entry_cap (max_entries : Nat) (glyphs : Nat → GMap) (s : ChatLog)
    (line : CStr) : ChatLog :=
  if line.length = 0 then s
  else
    let wrapped := wrap_text glyphs line MAX_WRAP_WIDTH
    let entry : ChatEntry :=
      { original_line := line,
        wrapped_lines := wrapped,
        num_wrapped := wrapped.length,
        rendered_height := wrapped.length * LINE_HEIGHT }
    let capacity :=
      if s.chat_log.length ≥ s.chat_log_capacity then
        (if s.chat_log_capacity = 0 then 10 else s.chat_log_capacity * 2)
      else s.chat_log_capacity
    let log := s.chat_log ++ [entry]
    if log.length > max_entries then
      { chat_log := (shift_loop (log.length - 1) 0 log).take (log.length - 1),
        chat_log_capacity := capacity }
    else
      { chat_log := log, chat_log_capacity := capacity }

/-- Function `add_chat_entry` (main.c 180-227). -/
def add_chat_entry (glyphs : Nat → GMap) (s : ChatLog) (line : CStr) : ChatLog :=
  add_chat_entry_cap MAX_ENTRIES glyphs s line

/-- Function `get_total_chat_height` (main.c 484-492). -/
def get_total_chat_height (s : ChatLog) : Int :=
  s.chat_log.foldl (fun total e => total + e.rendered_height) 0

/-- The entry stored for a line on which `wrap_text` finds no word. -/
def blank_entry (line : CStr) : ChatEntry :=
  { original_line := line, wrapped_lines := [], num_wrapped := 0, rendered_height := 0 }

/-! ## Tailing the log file -/

/-- What `stat` and `fopen` observe of the log file at one poll: whether each
call succeeds, the bytes of the file and its modification time. -/
structure FileState where
  stat_ok : Bool
  open_ok : Bool
  content : List Nat
  st_mtime : Int
deriving DecidableEq, Repr

/-- Field `st_size` of the `stat` result. -/
def FileState.st_size (f : FileState) : Int := f.content.length

/-- Globals read and written by `poll_log_file`. -/
structure TailState where
  chat : ChatLog
  last_file_pos : Int
  last_mod_time : Int
  RATE : ℚ
deriving DecidableEq

/-- Scan of `fgets`: copy at most `k` bytes, stopping after a newline; returns
the bytes copied and the unread rest of the stream. -/
def fgets_scan : Nat → List Nat → List Nat × List Nat
  | 0, s => ([], s)
  | _ + 1, [] => ([], [])
  | k + 1, c :: s =>
    if c = 10 then ([c], s)
    else ((c :: (fgets_scan k s).1), (fgets_scan k s).2)

/-- Call `fgets(buffer, size, fp)` on the unread bytes: NULL (`none`) at end of
file, otherwise at most `size - 1` bytes up to and including a newline. -/
def fgets (size : Nat) (stream : List Nat) : Option (List Nat × List Nat) :=
  match stream with
  | [] => none
  | _ :: _ => some (fgets_scan (size - 1) stream)

/-- The C string held by a zeroed buffer after `fgets` stored `bytes` in it: the
bytes before the first NUL. -/
def c_string (bytes : List Nat) : CStr := bytes.takeWhile (fun b => b != 0)

/-- The newline trim (main.c 288-289): drop a final newline. -/
def trim_newline (buffer : CStr) : CStr :=
  if buffer.getLast? = some 10 then buffer.dropLast else buffer

/-- Result of the read loop: the chat log, the strings handed to
`add_chat_entry` in order, and the unread rest of the stream. -/
structure ReadResult where
  chat : ChatLog
  emitted : List CStr
  rest : List Nat
deriving DecidableEq

/-- The `while (fgets(buffer, sizeof(buffer), fp) != NULL)` loop of
`poll_log_file` (main.c 286-295). The fuel bounds the number of `fgets` calls
that return a line; the length of the stream is always enough. -/
def read_loop (glyphs : Nat → GMap) :
    Nat → List Nat → ChatLog → List CStr → ReadResult
  | 0, stream, chat, emitted => { chat := chat, emitted := emitted, rest := stream }
  | fuel + 1, stream, chat, emitted =>
    match fgets 1024 stream with
    | none => { chat := chat, emitted := emitted, rest := stream }
    | some (bytes, rest) =>
      let buffer := trim_newline (c_string bytes)
      read_loop glyphs fuel rest (add_chat_entry glyphs chat buffer) (emitted ++ [buffer])

/-- Result of one poll: the globals afterwards and the strings handed to
`add_chat_entry` during the poll. -/
structure PollResult where
  state : TailState
  emitted : List CStr
deriving DecidableEq

/-- Function `poll_log_file` (main.c 261-302). A negative offset makes `fseek`
fail and leaves the stream at position 0; an offset past the end is kept. -/
def poll_log_file (glyphs : Nat → GMap) (file : FileState) (st : TailState) :
    PollResult :=
  if file.stat_ok = false then { state := st, emitted := [] }
  else if file.st_mtime ≤ st.last_mod_time ∧ file.st_size ≤ st.last_file_pos then
    { state := st, emitted := [] }
  else if file.open_ok = false then
    { state := { st with RATE := RATE_RESET }, emitted := [] }
  else
    let read_pos := st.last_file_pos.toNat
    let stream := file.content.drop read_pos
    let res := read_loop glyphs stream.length stream st.chat []
    { state :=
        { chat := res.chat,
          last_file_pos := (read_pos : Int) + ((stream.length : Int) - (res.rest.length : Int)),
          last_mod_time := file.st_mtime,
          RATE := RATE_RESET },
      emitted := res.emitted }

/-- Append bytes to the file and give it a new modification time. -/
def FileState.append (f : FileState) (bytes : List Nat) (mtime : Int) : FileState :=
  { f with content := f.content ++ bytes, st_mtime := mtime }

/-- Cursor seeding of `main` (main.c 539-546): offset at end of file, and the
modification time of the file. -/
def attach (file : FileState) (st : TailState) : TailState :=
  { st with last_file_pos := file.st_size, last_mod_time := file.st_mtime }

/-! ## Rendering -/

/-- Struct `Color`. -/
structure Color where
  r : Nat
  g : Nat
  b : Nat
  a : Nat
deriving DecidableEq, Repr

/-- Initial value of the global `c1`. -/
def c1_init : Color := { r := 0x55, g := 0x99, b := 0xFF, a := 0xFF }
/-- Initial value of the global `c2`. -/
def c2_init : Color := { r := 0x77, g := 0x77, b := 0x77, a := 0xFF }

/-- One `SDL_SetRenderDrawColor` followed by `SDL_RenderDrawPoint`: the colour
set and the point drawn. -/
structure DrawPoint where
  r : Nat
  g : Nat
  b : Nat
  a : Nat
  x : Int
  y : Int
deriving DecidableEq, Repr

/-- The global `RATE` and the position in the stream of `rand()` values. -/
structure JitterState where
  RATE : ℚ
  rand_next : Nat
deriving DecidableEq

/-- Conversion of a `float` to `int`: truncation toward zero. -/
def truncQ (q : ℚ) : Int := if 0 ≤ q then ⌊q⌋ else ⌈q⌉

/-- Rounding of a rational to the nearest integer, a tie going to the even
neighbour. -/
def roundHalfEven (q : ℚ) : Int :=
  if q - ⌊q⌋ < 1 / 2 then ⌊q⌋
  else if 1 / 2 < q - ⌊q⌋ then ⌊q⌋ + 1
  else if ⌊q⌋ % 2 = 0 then ⌊q⌋ else ⌊q⌋ + 1

/-- Rounding of a real result to `float` (binary32): the nearest multiple of
the unit in the last place `2 ^ (⌊log2 |x|⌋ - 23)`, which leaves 24 significant
bits, a tie going to the even significand. The exponent range is not bounded:
no overflow or underflow occurs at the magnitudes of `RATE` and `rand()`. -/
def f32 (x : ℚ) : ℚ :=
  if x = 0 then 0
  else (roundHalfEven (x / (2 : ℚ) ^ (Int.log 2 |x| - 23)) : ℚ) * (2 : ℚ) ^ (Int.log 2 |x| - 23)

/-- Conversion of an `int` to `float`. -/
def i2f (n : Int) : ℚ := f32 (n : ℚ)

/-- The offset `rand() % (int)RATE - (RATE/2)` stored in an `int`
(main.c 465-466), for the value `v` returned by `rand()`: the remainder is an
`int`, converted to `float` for the subtraction; the quotient `RATE/2` and the
difference are `float` results; the assignment truncates toward zero. -/
def jitter_offset (RATE : ℚ) (v : Int) : Int :=
  truncQ (f32 (i2f (Int.tmod v (truncQ RATE)) - f32 (RATE / 2)))

/-- The pixel loop of `render_gmap` (main.c 451-479); `k` is the index of the
next `rand()` value. -/
def render_pixels (c1 c2 : Color) (rand : Nat → Int) (x y : Int) (colon_flag : Bool)
    (RATE : ℚ) : List Pixel → Nat → List DrawPoint
  | [], _ => []
  | p :: ps, k =>
    let col := if colon_flag = false then c1 else c2
    let off_x := jitter_offset RATE (rand k)
    let off_y := jitter_offset RATE (rand (k + 1))
    { r := col.r, g := col.g, b := col.b, a := p.a,
      x := x + p.x + off_x, y := y + p.y + off_y } ::
      render_pixels c1 c2 rand x y colon_flag RATE ps (k + 2)

/-- Function `render_gmap` (main.c 442-482): the jitter state afterwards and the
points drawn. The character code is a natural, so `ch < 0` cannot occur. The
loop reads `pixels[0 .. num_pixels)`. -/
def render_gmap (glyphs : Nat → GMap) (c1 c2 : Color) (rand : Nat → Int)
    (ch : Nat) (x y : Int) (colon_flag : Bool) (js : JitterState) :
    JitterState × List DrawPoint :=
  if ch ≥ 128 ∨ (glyphs ch).num_pixels = 0 then (js, [])
  else
    match (glyphs ch).pixels with
    | none => (js, [])
    | some pixels =>
      let RATE := if js.RATE > 11 / 10 then js.RATE - 1 / 100 else js.RATE
      let drawn := pixels.take (glyphs ch).num_pixels.toNat
      ({ RATE := RATE, rand_next := js.rand_next + 2 * drawn.length },
        render_pixels c1 c2 rand x y colon_flag RATE drawn js.rand_next)

/-- Initial value of the global `RATE` (main.c 34). -/
def RATE_INIT : ℚ := 20

/-- The 'e' key handler `RATE += RATE_RESET` (main.c 607). -/
def key_e (RATE : ℚ) : ℚ := RATE + RATE_RESET

/-- One step of the global `RATE`: the three places of the program that write
it. A call of `render_gmap` (main.c 448), on any glyph and from any jitter
state; a call of `poll_log_file` (main.c 272), on any file and cursor; the 'e'
key (main.c 607). -/
inductive RateStep : ℚ → ℚ → Prop
  | draw (glyphs : Nat → GMap) (c1 c2 : Color) (rand : Nat → Int) (ch : Nat) (x y : Int)
      (colon_flag : Bool) (js : JitterState) :
      RateStep js.RATE (render_gmap glyphs c1 c2 rand ch x y colon_flag js).1.RATE
  | poll (glyphs : Nat → GMap) (file : FileState) (st : TailState) :
      RateStep st.RATE (poll_log_file glyphs file st).state.RATE
  | bump (RATE : ℚ) : RateStep RATE (key_e RATE)

/-- Values of `RATE` the program can reach from its initial value. -/
def RateReachable (r : ℚ) : Prop := Relation.ReflTransGen RateStep RATE_INIT r

/-! ## Sample data -/

/-- Glyph table of the scenario font: only 'A' (65) has pixels, three of them,
and advance 10; every other glyph is blank. -/
def scenarioGlyphs : Nat → GMap := fun c =>
  if c = 65 then
    { width := 2, height := 2, num_pixels := 3,
      pixels := some [⟨0, 0, 255, 0, 0, 255⟩, ⟨1, 0, 0, 255, 0, 255⟩, ⟨0, 1, 0, 0, 255, 255⟩],
      advance := 10 }
  else { width := 0, height := 0, num_pixels := 0, pixels := none, advance := 0 }

/-- Glyph table in which every character has one visible pixel, width 8 and
advance 10. -/
def plainGlyphs : Nat → GMap := fun _ =>
  { width := 8, height := 16, num_pixels := 1,
    pixels := some [⟨3, 4, 255, 255, 255, 200⟩], advance := 10 }

/-- Sample text with leading, repeated and trailing delimiters. -/
def sampleText : CStr := [32, 97, 98, 32, 99, 100, 9, 9, 101, 102, 103, 10, 104, 32]

/-- Fifty-three distinct one-character lines. -/
def sampleLines : List CStr := (List.range 53).map (fun i => [48 + i])

/-- Globals at program start, before any line was read. -/
def startState : TailState :=
  { chat := empty_chat_log, last_file_pos := 0, last_mod_time := 0, RATE := 20 }

/-- An empty, readable log file. -/
def emptyFile : FileState :=
  { stat_ok := true, open_ok := true, content := [], st_mtime := 0 }

/-- A stream of `rand()` values. -/
def sampleRand : Nat → Int := fun k => 7 * k + 13

/-- The rate after one glyph was drawn at the initial rate. -/
def sampleRateDrawn : ℚ :=
  (render_gmap scenarioGlyphs c1_init c2_init sampleRand 65 0 0 false
    { RATE := RATE_INIT, rand_next := 0 }).1.RATE

/-- The rate after a glyph was drawn, the 'e' key was pressed and a poll found
the line "hi" appended to the file. -/
def sampleRatePolled : ℚ :=
  (poll_log_file scenarioGlyphs (emptyFile.append [104, 105, 10] 1)
    { chat := empty_chat_log, last_file_pos := 0, last_mod_time := 0,
      RATE := key_e sampleRateDrawn }).state.RATE

/-! ## Tokenisation -/

theorem inputWords_nil : inputWords [] = [] := by
  simp [inputWords, List.splitOnP_nil]

theorem inputWords_cons_delim (d : Nat) (s : CStr) (hd : isDelim d = true) :
    inputWords (d :: s) = inputWords s := by
  simp [inputWords, List.splitOnP_cons, hd]

theorem strtok_cons_delim (d : Nat) (s : CStr) (hd : isDelim d = true) :
    strtok (d :: s) = strtok s := by
  simp [strtok, List.dropWhile, hd]

theorem strtok_cons_word (c : Nat) (cs : CStr) (hc : isDelim c = false) :
    strtok (c :: cs) =
      some ((c :: cs).takeWhile (fun d => !isDelim d),
            ((c :: cs).dropWhile (fun d => !isDelim d)).drop 1) := by
  simp [strtok, List.dropWhile, hc]

theorem inputWords_cons_word (c : Nat) (cs : CStr) (hc : isDelim c = false) :
    inputWords (c :: cs) =
      (c :: cs).takeWhile (fun d => !isDelim d) ::
        inputWords (((c :: cs).dropWhile (fun d => !isDelim d)).drop 1) := by
  have hsplit := List.takeWhile_append_dropWhile (fun d => !isDelim d) (c :: cs)
  have htake : ∀ x ∈ (c :: cs).takeWhile (fun d => !isDelim d), ¬ isDelim x = true := by
    intro x hx
    have := List.mem_takeWhile_imp hx
    simpa using this
  have hne : (c :: cs).takeWhile (fun d => !isDelim d) ≠ [] := by
    simp [List.takeWhile, hc]
  cases hdrop : (c :: cs).dropWhile (fun d => !isDelim d) with
  | nil =>
    rw [hdrop, List.append_nil] at hsplit
    rw [hsplit] at htake hne ⊢
    simp only [List.drop_nil, inputWords_nil]
    have h1 : List.splitOnP isDelim (c :: cs) = [c :: cs] := List.splitOnP_eq_single isDelim _ htake
    simp [inputWords, h1]
  | cons sep as =>
    have hsep : isDelim sep = true := by
      have h := List.head_dropWhile_not (fun d => !isDelim d) (c :: cs) (by simp [hdrop])
      simp only [hdrop, List.head_cons] at h
      simpa using h
    rw [hdrop] at hsplit
    conv_lhs => rw [← hsplit]
    simp only [inputWords, List.drop_succ_cons, List.drop_zero]
    have h1 : List.splitOnP isDelim (List.takeWhile (fun d => !isDelim d) (c :: cs) ++ sep :: as)
        = List.takeWhile (fun d => !isDelim d) (c :: cs) :: List.splitOnP isDelim as :=
      List.splitOnP_first isDelim _ htake sep hsep as
    rw [h1]
    simp [hne]

theorem inputWords_strtok (s : CStr) :
    inputWords s = match strtok s with
      | none => []
      | some (w, r) => w :: inputWords r := by
  induction s with
  | nil => simp [inputWords_nil, strtok]
  | cons c cs ih =>
    cases hc : isDelim c with
    | true => rw [inputWords_cons_delim c cs hc, strtok_cons_delim c cs hc]; exact ih
    | false => rw [strtok_cons_word c cs hc]; exact inputWords_cons_word c cs hc

theorem strtok_length (s w r : CStr) (h : strtok s = some (w, r)) :
    r.length < s.length := by
  induction s with
  | nil => simp [strtok] at h
  | cons c cs ih =>
    cases hc : isDelim c with
    | true =>
      rw [strtok_cons_delim c cs hc] at h
      have := ih h
      simp only [List.length_cons]; omega
    | false =>
      rw [strtok_cons_word c cs hc] at h
      simp only [Option.some.injEq, Prod.mk.injEq] at h
      obtain ⟨-, rfl⟩ := h
      have h2 : (List.dropWhile (fun d => !isDelim d) (c :: cs)).length ≤ cs.length := by
        simp only [List.dropWhile, hc, Bool.not_false]
        exact (List.dropWhile_sublist _).length_le
      simp only [List.length_drop, List.length_cons]
      omega

theorem strtok_word (s w r : CStr) (h : strtok s = some (w, r)) :
    w ≠ [] ∧ ∀ c ∈ w, isDelim c = false := by
  induction s with
  | nil => simp [strtok] at h
  | cons c cs ih =>
    cases hc : isDelim c with
    | true =>
      rw [strtok_cons_delim c cs hc] at h
      exact ih h
    | false =>
      rw [strtok_cons_word c cs hc] at h
      simp only [Option.some.injEq, Prod.mk.injEq] at h
      obtain ⟨rfl, -⟩ := h
      refine ⟨by simp [List.takeWhile, hc], ?_⟩
      intro x hx
      have := List.mem_takeWhile_imp hx
      simpa using this

theorem inputWords_word (n : Nat) : ∀ (s : CStr), s.length ≤ n →
    ∀ w ∈ inputWords s, w ≠ [] ∧ ∀ c ∈ w, isDelim c = false := by
  induction n with
  | zero =>
    intro s hs w hw
    have : s = [] := List.length_eq_zero.mp (by omega)
    subst this
    simp [inputWords_nil] at hw
  | succ n ih =>
    intro s hs w hw
    rw [inputWords_strtok] at hw
    cases hst : strtok s with
    | none => simp [hst] at hw
    | some p =>
      obtain ⟨w0, r⟩ := p
      simp only [hst, List.mem_cons] at hw
      rcases hw with rfl | hw
      · exact strtok_word s _ r hst
      · have := strtok_length s w0 r hst
        exact ih r (by omega) w hw
/-! ## The wrap loop -/

theorem wrap_loop_eq_foldl (glyphs : Nat → GMap) (max_width_pixels : Int) (fuel : Nat) :
    ∀ (st : WrapState) (word rest : CStr), rest.length ≤ fuel →
      wrap_loop glyphs max_width_pixels fuel st word rest =
        (inputWords rest).foldl (wrap_step glyphs max_width_pixels)
          (wrap_step glyphs max_width_pixels st word) := by
  induction fuel with
  | zero =>
    intro st word rest h
    have : rest = [] := List.length_eq_zero.mp (by omega)
    subst this
    simp [wrap_loop, inputWords_nil]
  | succ n ih =>
    intro st word rest h
    rw [inputWords_strtok rest]
    cases hst : strtok rest with
    | none => simp [wrap_loop, hst]
    | some p =>
      obtain ⟨w, r⟩ := p
      have hlen := strtok_length rest w r hst
      simp only [wrap_loop, hst, List.foldl_cons]
      exact ih _ w r (by omega)

theorem wrap_text_eq_foldl (glyphs : Nat → GMap) (text : CStr) (max_width_pixels : Int) :
    wrap_text glyphs text max_width_pixels =
      wrap_flush ((inputWords text).foldl (wrap_step glyphs max_width_pixels) wrap_init) := by
  unfold wrap_text
  by_cases h0 : text.length = 0
  · have : text = [] := List.length_eq_zero.mp h0
    subst this
    simp [inputWords_nil, wrap_flush, wrap_init]
  · rw [if_neg h0, inputWords_strtok text]
    cases hst : strtok text with
    | none => simp [wrap_flush, wrap_init]
    | some p =>
      obtain ⟨w, r⟩ := p
      simp only [List.foldl_cons]
      rw [wrap_loop_eq_foldl glyphs max_width_pixels r.length _ w r (le_refl _)]
      rfl

/-- The fuel handed to `wrap_loop` by `wrap_text` is enough: more fuel gives the
same state. -/
theorem wrap_loop_fuel (glyphs : Nat → GMap) (max_width_pixels : Int) (fuel : Nat)
    (st : WrapState) (word rest : CStr) (h : rest.length ≤ fuel) :
    wrap_loop glyphs max_width_pixels fuel st word rest =
      wrap_loop glyphs max_width_pixels rest.length st word rest := by
  rw [wrap_loop_eq_foldl glyphs max_width_pixels fuel st word rest h,
    wrap_loop_eq_foldl glyphs max_width_pixels rest.length st word rest (le_refl _)]

/-! ## Widths -/

theorem word_advance_eq_aux (glyphs : Nat → GMap) (word : CStr) : ∀ (acc : Int),
    word.foldl (fun acc ch_code => acc + get_advance glyphs ch_code) acc =
      acc + pixel_width glyphs word := by
  induction word with
  | nil => intro acc; simp [pixel_width]
  | cons c cs ih =>
    intro acc
    simp only [List.foldl_cons, ih, pixel_width, List.map_cons, List.sum_cons]
    ring

theorem word_advance_eq (glyphs : Nat → GMap) (word : CStr) :
    word_advance glyphs word = pixel_width glyphs word := by
  simp [word_advance, word_advance_eq_aux]

theorem pixel_width_append (glyphs : Nat → GMap) (a b : CStr) :
    pixel_width glyphs (a ++ b) = pixel_width glyphs a + pixel_width glyphs b := by
  simp [pixel_width]

theorem pixel_width_space (glyphs : Nat → GMap) :
    pixel_width glyphs [32] = SPACE_ADVANCE := by
  simp [pixel_width, get_advance]

theorem wrap_step_widthInv (glyphs : Nat → GMap) (max_width_pixels : Int)
    (st : WrapState) (word : CStr)
    (hw : pixel_width glyphs word ≤ max_width_pixels)
    (hinv : WidthInv glyphs max_width_pixels st) :
    WidthInv glyphs max_width_pixels (wrap_step glyphs max_width_pixels st word) := by
  obtain ⟨hadv, hlines, hcur⟩ := hinv
  unfold wrap_step
  simp only [word_advance_eq]
  by_cases hlen : st.current_line.length > 0
  · have hne : st.current_line ≠ [] := by
      intro h; rw [h] at hlen; simp at hlen
    simp only [hlen, if_true, and_true]
    by_cases hover : st.current_advance + SPACE_ADVANCE + pixel_width glyphs word
        > max_width_pixels
    · rw [if_pos hover]
      refine ⟨rfl, ?_, fun _ => hw⟩
      intro l hl
      rcases List.mem_append.mp hl with h | h
      · exact hlines l h
      · rw [List.mem_singleton.mp h]; exact hcur hne
    · rw [if_neg hover]
      have hpw : pixel_width glyphs (st.current_line ++ [32] ++ word) =
          st.current_advance + SPACE_ADVANCE + pixel_width glyphs word := by
        rw [pixel_width_append, pixel_width_append, pixel_width_space, hadv]
      refine ⟨hpw.symm, hlines, fun _ => ?_⟩
      rw [hpw]; exact not_lt.mp hover
  · have hnil : st.current_line = [] := by
      cases hc : st.current_line with
      | nil => rfl
      | cons a b => rw [hc] at hlen; simp at hlen
    simp only [hlen, and_false, if_false]
    refine ⟨?_, hlines, fun _ => ?_⟩
    · simp [hnil, hadv, pixel_width]
    · simpa [hnil] using hw

theorem foldl_widthInv (glyphs : Nat → GMap) (max_width_pixels : Int) (ws : List CStr) :
    ∀ (st : WrapState), (∀ w ∈ ws, pixel_width glyphs w ≤ max_width_pixels) →
      WidthInv glyphs max_width_pixels st →
      WidthInv glyphs max_width_pixels
        (ws.foldl (wrap_step glyphs max_width_pixels) st) := by
  induction ws with
  | nil => intro st _ h; exact h
  | cons w ws ih =>
    intro st hws h
    simp only [List.foldl_cons]
    exact ih _ (fun v hv => hws v (List.mem_cons_of_mem _ hv))
      (wrap_step_widthInv glyphs max_width_pixels st w (hws w (List.mem_cons_self _ _)) h)
/-! ## Words on the output lines -/

theorem splitOn_space_append (a b : CStr) :
    (a ++ 32 :: b).splitOn 32 = a.splitOn 32 ++ b.splitOn 32 := by
  induction a with
  | nil => simp [List.splitOn, List.splitOnP_cons, List.splitOnP_nil]
  | cons c cs ih =>
    simp only [List.splitOn] at ih ⊢
    simp only [List.cons_append, List.splitOnP_cons]
    by_cases hc : (c == 32) = true
    · simp [hc, ih]
    · simp only [hc, if_false, ih]
      cases h : List.splitOnP (fun x => x == 32) cs with
      | nil => exact absurd h (List.splitOnP_ne_nil _ _)
      | cons x xs => simp [List.modifyHead]

theorem splitOn_space_word (w : CStr) (hw : ∀ c ∈ w, isDelim c = false) :
    w.splitOn 32 = [w] := by
  apply List.splitOnP_eq_single
  intro x hx hx32
  have h1 : x = 32 := by simpa using hx32
  have h2 := hw x hx
  rw [h1] at h2
  simp [isDelim] at h2

theorem linesWords_append (a b : List CStr) :
    linesWords (a ++ b) = linesWords a ++ linesWords b := by
  simp [linesWords]

theorem wrap_step_words (glyphs : Nat → GMap) (max_width_pixels : Int)
    (st : WrapState) (word : CStr) (hne : word ≠ [])
    (hw : ∀ c ∈ word, isDelim c = false) :
    stateWords (wrap_step glyphs max_width_pixels st word) = stateWords st ++ [word] := by
  unfold wrap_step
  by_cases hlen : st.current_line.length > 0
  · have hcur : st.current_line ≠ [] := by
      intro h; rw [h] at hlen; simp at hlen
    simp only [hlen, if_true, and_true]
    split
    · simp [stateWords, linesWords_append, linesWords, hcur, hne, splitOn_space_word word hw]
    · simp [stateWords, hcur, splitOn_space_append, splitOn_space_word word hw]
  · have hnil : st.current_line = [] := by
      cases hc : st.current_line with
      | nil => rfl
      | cons a b => rw [hc] at hlen; simp at hlen
    simp only [hlen, and_false, if_false]
    simp [stateWords, hnil, hne, splitOn_space_word word hw]

theorem foldl_words (glyphs : Nat → GMap) (max_width_pixels : Int) (ws : List CStr) :
    ∀ (st : WrapState), (∀ w ∈ ws, w ≠ [] ∧ ∀ c ∈ w, isDelim c = false) →
      stateWords (ws.foldl (wrap_step glyphs max_width_pixels) st) = stateWords st ++ ws := by
  induction ws with
  | nil => intro st _; simp
  | cons w ws ih =>
    intro st hws
    simp only [List.foldl_cons]
    rw [ih _ (fun v hv => hws v (List.mem_cons_of_mem _ hv)),
      wrap_step_words glyphs max_width_pixels st w (hws w (List.mem_cons_self _ _)).1
        (hws w (List.mem_cons_self _ _)).2]
    simp

theorem linesWords_flush (st : WrapState) : linesWords (wrap_flush st) = stateWords st := by
  unfold wrap_flush stateWords
  by_cases hlen : st.current_line.length > 0
  · have hcur : st.current_line ≠ [] := by
      intro h; rw [h] at hlen; simp at hlen
    simp [hlen, hcur, linesWords_append, linesWords]
  · have hnil : st.current_line = [] := by
      cases hc : st.current_line with
      | nil => rfl
      | cons a b => rw [hc] at hlen; simp at hlen
    simp [hnil]

/-! ## The chat log -/

theorem shift_loop_spec (rest : List ChatEntry) :
    ∀ (pre : List ChatEntry) (x : ChatEntry),
      shift_loop rest.length pre.length (pre ++ x :: rest) =
        pre ++ rest ++ [(x :: rest).getLast (List.cons_ne_nil _ _)] := by
  induction rest with
  | nil => intro pre x; simp [shift_loop]
  | cons y ys ih =>
    intro pre x
    have hget : (pre ++ x :: y :: ys)[pre.length + 1]? = some y := by
      rw [List.getElem?_append_right (by omega)]
      simp
    have hset : (pre ++ x :: y :: ys).set pre.length y = (pre ++ [y]) ++ y :: ys := by
      rw [List.set_append_right _ _ (le_refl _)]
      simp
    simp only [List.length_cons, shift_loop, hget, hset]
    have := ih (pre ++ [y]) y
    simp only [List.length_append, List.length_singleton] at this
    rw [this]
    simp [List.getLast_cons]

theorem evict_eq_tail (log : List ChatEntry) :
    (shift_loop (log.length - 1) 0 log).take (log.length - 1) = log.tail := by
  cases log with
  | nil => simp [shift_loop]
  | cons x rest =>
    have := shift_loop_spec rest [] x
    simp only [List.length_nil, List.nil_append] at this
    simp only [List.length_cons, Nat.add_sub_cancel, this, List.tail_cons]
    rw [List.take_append_of_le_length (le_refl _), List.take_length]

theorem add_chat_entry_cap_log (max_entries : Nat) (glyphs : Nat → GMap) (s : ChatLog)
    (line : CStr) (hne : line ≠ []) :
    ((add_chat_entry_cap max_entries glyphs s line).chat_log).map ChatEntry.original_line =
      if s.chat_log.length + 1 > max_entries then
        (s.chat_log.map ChatEntry.original_line ++ [line]).tail
      else s.chat_log.map ChatEntry.original_line ++ [line] := by
  have hlen : ¬ line.length = 0 := by
    intro h; exact hne (List.length_eq_zero.mp h)
  unfold add_chat_entry_cap
  simp only [hlen, if_false]
  split
  · rename_i h
    have h1 : s.chat_log.length + 1 > max_entries := by simpa using h
    rw [evict_eq_tail, if_pos h1]
    simp [List.map_tail]
  · rename_i h
    have h1 : ¬ s.chat_log.length + 1 > max_entries := by simpa using h
    rw [if_neg h1]
    simp

theorem foldl_add_chat_entry_cap (max_entries : Nat) (glyphs : Nat → GMap)
    (lines : List CStr) (hne : ∀ l ∈ lines, l ≠ []) :
    ((lines.foldl (add_chat_entry_cap max_entries glyphs) empty_chat_log).chat_log).map
        ChatEntry.original_line = lines.drop (lines.length - max_entries) := by
  induction lines using List.reverseRecOn with
  | nil => simp [empty_chat_log]
  | append_singleton init l ih =>
    have hinit : ∀ l ∈ init, l ≠ [] := fun v hv => hne v (List.mem_append_left _ hv)
    have hl : l ≠ [] := hne l (by simp)
    have ih' := ih hinit
    have hsize : (init.foldl (add_chat_entry_cap max_entries glyphs) empty_chat_log).chat_log.length
        = init.length - (init.length - max_entries) := by
      have := congrArg List.length ih'
      simpa using this
    rw [List.foldl_append, List.foldl_cons, List.foldl_nil,
      add_chat_entry_cap_log max_entries glyphs _ l hl, ih', hsize]
    simp only [List.length_append, List.length_singleton]
    by_cases hfull : init.length < max_entries
    · have h1 : init.length - max_entries = 0 := by omega
      have h2 : init.length + 1 - max_entries = 0 := by omega
      have h3 : ¬ (init.length - (init.length - max_entries) + 1 > max_entries) := by omega
      rw [if_neg h3]
      simp only [h1, h2, List.drop_zero]
    · have h3 : init.length - (init.length - max_entries) + 1 > max_entries := by omega
      have h4 : init.length - max_entries + 1 = init.length + 1 - max_entries := by omega
      have h5 : List.drop (init.length - max_entries) init ++ [l] =
          List.drop (init.length - max_entries) (init ++ [l]) :=
        (List.drop_append_of_le_length (by omega)).symm
      rw [if_pos h3, h5, List.tail_drop, h4]

theorem inputWords_blank (line : CStr) (h : ∀ c ∈ line, isDelim c = true) :
    inputWords line = [] := by
  induction line with
  | nil => exact inputWords_nil
  | cons c cs ih =>
    rw [inputWords_cons_delim c cs (h c (List.mem_cons_self _ _))]
    exact ih (fun d hd => h d (List.mem_cons_of_mem _ hd))

theorem wrap_text_blank (glyphs : Nat → GMap) (line : CStr) (max_width_pixels : Int)
    (h : ∀ c ∈ line, isDelim c = true) : wrap_text glyphs line max_width_pixels = [] := by
  rw [wrap_text_eq_foldl, inputWords_blank line h]
  rfl

/-! ## Reading the file -/

theorem fgets_scan_length (k : Nat) : ∀ (s : List Nat),
    (fgets_scan k s).1.length + (fgets_scan k s).2.length = s.length := by
  induction k with
  | zero => intro s; simp [fgets_scan]
  | succ k ih =>
    intro s
    cases s with
    | nil => simp [fgets_scan]
    | cons c cs =>
      by_cases hc : c = 10
      · simp [fgets_scan, hc, Nat.add_comm]
      · simp only [fgets_scan, hc, if_false, List.length_cons]
        have := ih cs
        omega

theorem fgets_scan_progress (k : Nat) (c : Nat) (cs : List Nat) :
    (fgets_scan (k + 1) (c :: cs)).2.length < (c :: cs).length := by
  by_cases hc : c = 10
  · simp [fgets_scan, hc]
  · simp only [fgets_scan, hc, if_false, List.length_cons]
    have := fgets_scan_length k cs
    omega

theorem read_loop_rest (glyphs : Nat → GMap) (fuel : Nat) :
    ∀ (stream : List Nat) (chat : ChatLog) (emitted : List CStr),
      stream.length ≤ fuel → (read_loop glyphs fuel stream chat emitted).rest = [] := by
  induction fuel with
  | zero =>
    intro stream chat emitted h
    have : stream = [] := List.length_eq_zero.mp (by omega)
    simp [read_loop, this]
  | succ n ih =>
    intro stream chat emitted h
    cases stream with
    | nil => simp [read_loop, fgets]
    | cons c cs =>
      simp only [read_loop, fgets]
      apply ih
      have hp : (fgets_scan (1024 - 1) (c :: cs)).2.length < (c :: cs).length :=
        fgets_scan_progress 1022 c cs
      simp only [List.length_cons] at hp h
      omega

theorem read_loop_fuel_irrelevant (glyphs : Nat → GMap) (fuel : Nat) :
    ∀ (fuel2 : Nat) (stream : List Nat) (chat : ChatLog) (emitted : List CStr),
      stream.length ≤ fuel → stream.length ≤ fuel2 →
      read_loop glyphs fuel stream chat emitted =
        read_loop glyphs fuel2 stream chat emitted := by
  induction fuel with
  | zero =>
    intro fuel2 stream chat emitted h _
    have : stream = [] := List.length_eq_zero.mp (by omega)
    subst this
    cases fuel2 <;> simp [read_loop, fgets]
  | succ n ih =>
    intro fuel2 stream chat emitted h h2
    cases stream with
    | nil => cases fuel2 <;> simp [read_loop, fgets]
    | cons c cs =>
      have hp : (fgets_scan (1024 - 1) (c :: cs)).2.length < (c :: cs).length :=
        fgets_scan_progress 1022 c cs
      simp only [List.length_cons] at hp h h2
      cases fuel2 with
      | zero => omega
      | succ m =>
        simp only [read_loop, fgets]
        exact ih m _ _ _ (by omega) (by omega)

/-- The fuel handed to `read_loop` by `poll_log_file` is enough: more fuel gives
the same result. -/
theorem read_loop_fuel (glyphs : Nat → GMap) (fuel : Nat) (stream : List Nat)
    (chat : ChatLog) (emitted : List CStr) (h : stream.length ≤ fuel) :
    read_loop glyphs fuel stream chat emitted =
      read_loop glyphs stream.length stream chat emitted :=
  read_loop_fuel_irrelevant glyphs fuel stream.length stream chat emitted h (le_refl _)

theorem fgets_scan_line (k : Nat) : ∀ (l more : List Nat),
    (∀ c ∈ l, c ≠ 10) → l.length < k →
    fgets_scan k (l ++ 10 :: more) = (l ++ [10], more) := by
  induction k with
  | zero => intro l more _ h; omega
  | succ k ih =>
    intro l more hl hlen
    cases l with
    | nil => simp [fgets_scan]
    | cons c cs =>
      have hc : c ≠ 10 := hl c (List.mem_cons_self _ _)
      have := ih cs more (fun d hd => hl d (List.mem_cons_of_mem _ hd))
        (by simp only [List.length_cons] at hlen; omega)
      simp [fgets_scan, hc, this]

theorem fgets_scan_tail (k : Nat) : ∀ (l : List Nat),
    (∀ c ∈ l, c ≠ 10) → l.length ≤ k → fgets_scan k l = (l, []) := by
  induction k with
  | zero =>
    intro l _ h
    have : l = [] := List.length_eq_zero.mp (by omega)
    simp [fgets_scan, this]
  | succ k ih =>
    intro l hl hlen
    cases l with
    | nil => simp [fgets_scan]
    | cons c cs =>
      have hc : c ≠ 10 := hl c (List.mem_cons_self _ _)
      have := ih cs (fun d hd => hl d (List.mem_cons_of_mem _ hd))
        (by simp only [List.length_cons] at hlen; omega)
      simp [fgets_scan, hc, this]

theorem c_string_id (l : List Nat) (h : ∀ c ∈ l, c ≠ 0) : c_string l = l := by
  unfold c_string
  rw [List.takeWhile_eq_self_iff]
  intro c hc
  simpa using h c hc

theorem trim_newline_line (l : CStr) : trim_newline (l ++ [10]) = l := by
  simp [trim_newline]

theorem trim_newline_tail (l : CStr) (h : ∀ c ∈ l, c ≠ 10) : trim_newline l = l := by
  unfold trim_newline
  split
  · rename_i hlast
    have := List.mem_of_getLast?_eq_some hlast
    exact absurd rfl (h 10 this)
  · rfl
/-! ## Complete lines followed by more bytes -/

theorem fgets_scan_body (k : Nat) : ∀ (b more : List Nat),
    fgets_scan k (b ++ 10 :: more) =
      ((fgets_scan k (b ++ [10])).1, (fgets_scan k (b ++ [10])).2 ++ more) := by
  induction k with
  | zero => intro b more; simp [fgets_scan]
  | succ k ih =>
    intro b more
    cases b with
    | nil => simp [fgets_scan]
    | cons c cs =>
      by_cases hc : c = 10
      · simp [fgets_scan, hc]
      · simp only [List.cons_append, fgets_scan, hc, if_false, List.append_eq, ih cs more]

theorem fgets_scan_body_rest (k : Nat) : ∀ (b : List Nat),
    (fgets_scan k (b ++ [10])).2 = [] ∨
      ∃ b2 : List Nat, (fgets_scan k (b ++ [10])).2 = b2 ++ [10] := by
  induction k with
  | zero => intro b; exact Or.inr ⟨b, by simp [fgets_scan]⟩
  | succ k ih =>
    intro b
    cases b with
    | nil => simp [fgets_scan]
    | cons c cs =>
      by_cases hc : c = 10
      · exact Or.inr ⟨cs, by simp [fgets_scan, hc]⟩
      · simpa [fgets_scan, hc] using ih cs

theorem read_loop_nil (glyphs : Nat → GMap) (fuel : Nat) (chat : ChatLog)
    (emitted : List CStr) :
    read_loop glyphs fuel [] chat emitted = { chat := chat, emitted := emitted, rest := [] } := by
  cases fuel <;> simp [read_loop, fgets]

theorem read_loop_cons (glyphs : Nat → GMap) (fuel : Nat) (c : Nat) (cs : List Nat)
    (chat : ChatLog) (emitted : List CStr) :
    read_loop glyphs (fuel + 1) (c :: cs) chat emitted =
      read_loop glyphs fuel (fgets_scan 1023 (c :: cs)).2
        (add_chat_entry glyphs chat (trim_newline (c_string (fgets_scan 1023 (c :: cs)).1)))
        (emitted ++ [trim_newline (c_string (fgets_scan 1023 (c :: cs)).1)]) := by
  simp [read_loop, fgets]

theorem read_loop_body (glyphs : Nat → GMap) (n : Nat) :
    ∀ (b more : List Nat) (chat : ChatLog) (emitted : List CStr), b.length ≤ n →
      read_loop glyphs (b ++ 10 :: more).length (b ++ 10 :: more) chat emitted =
        read_loop glyphs more.length more
          (read_loop glyphs (b ++ [10]).length (b ++ [10]) chat emitted).chat
          (read_loop glyphs (b ++ [10]).length (b ++ [10]) chat emitted).emitted := by
  induction n using Nat.strong_induction_on with
  | _ n ih =>
    intro b more chat emitted hb
    obtain ⟨c, cs, hcs⟩ : ∃ c cs, b ++ [10] = c :: cs := by
      cases b with
      | nil => exact ⟨10, [], rfl⟩
      | cons x xs => exact ⟨x, xs ++ [10], by simp⟩
    have hcons : b ++ 10 :: more = c :: (cs ++ more) := by
      have : b ++ 10 :: more = (b ++ [10]) ++ more := by simp
      rw [this, hcs]; rfl
    have hscan : fgets_scan 1023 (c :: (cs ++ more)) =
        ((fgets_scan 1023 (c :: cs)).1, (fgets_scan 1023 (c :: cs)).2 ++ more) := by
      rw [← hcons, ← hcs]; exact fgets_scan_body 1023 b more
    have hprog : (fgets_scan 1023 (c :: cs)).2.length < (c :: cs).length :=
      fgets_scan_progress 1022 c cs
    have hblen : b.length = cs.length := by
      have := congrArg List.length hcs
      simpa using this
    rw [hcons, hcs]
    simp only [List.length_cons]
    rw [read_loop_cons, read_loop_cons, hscan]
    simp only []
    have hrest := fgets_scan_body_rest 1023 b
    rw [hcs] at hrest
    rcases hrest with hrest | ⟨b2, hrest⟩
    · rw [hrest, List.nil_append, read_loop_nil]
      apply read_loop_fuel_irrelevant
      · simp
      · exact le_refl _
    · rw [hrest] at hprog ⊢
      simp only [List.length_append, List.length_singleton, List.length_cons] at hprog
      have h1 := ih b2.length (by omega) b2 more
        (add_chat_entry glyphs chat (trim_newline (c_string (fgets_scan 1023 (c :: cs)).1)))
        (emitted ++ [trim_newline (c_string (fgets_scan 1023 (c :: cs)).1)]) (le_refl _)
      have h2 : b2 ++ [10] ++ more = b2 ++ 10 :: more := by simp
      rw [h2, read_loop_fuel_irrelevant glyphs (cs ++ more).length (b2 ++ 10 :: more).length
        _ _ _ (by simp only [List.length_append, List.length_cons]; omega) (le_refl _), h1,
        read_loop_fuel_irrelevant glyphs cs.length (b2 ++ [10]).length
        _ _ _ (by simp only [List.length_append, List.length_singleton]; omega) (le_refl _)]
/-! ## One poll -/

theorem read_loop_chunk (glyphs : Nat → GMap) (stream bytes : List Nat) (chat : ChatLog)
    (emitted : List CStr) (hne : stream ≠ []) (hscan : fgets_scan 1023 stream = (bytes, [])) :
    read_loop glyphs stream.length stream chat emitted =
      { chat := add_chat_entry glyphs chat (trim_newline (c_string bytes)),
        emitted := emitted ++ [trim_newline (c_string bytes)],
        rest := [] } := by
  cases stream with
  | nil => exact absurd rfl hne
  | cons c cs =>
    simp only [List.length_cons]
    rw [read_loop_cons, hscan, read_loop_nil]

theorem poll_slow_path (glyphs : Nat → GMap) (file : FileState) (st : TailState)
    (hstat : file.stat_ok = true) (hopen : file.open_ok = true)
    (hgrow : st.last_file_pos < file.st_size) :
    poll_log_file glyphs file st =
      { state :=
          { chat := (read_loop glyphs (file.content.drop st.last_file_pos.toNat).length
              (file.content.drop st.last_file_pos.toNat) st.chat []).chat,
            last_file_pos := (st.last_file_pos.toNat : Int) +
              (((file.content.drop st.last_file_pos.toNat).length : Int) -
                ((read_loop glyphs (file.content.drop st.last_file_pos.toNat).length
                  (file.content.drop st.last_file_pos.toNat) st.chat []).rest.length : Int)),
            last_mod_time := file.st_mtime,
            RATE := RATE_RESET },
        emitted := (read_loop glyphs (file.content.drop st.last_file_pos.toNat).length
              (file.content.drop st.last_file_pos.toNat) st.chat []).emitted } := by
  unfold poll_log_file
  have h1 : ¬ (file.st_mtime ≤ st.last_mod_time ∧ file.st_size ≤ st.last_file_pos) := by
    intro h; omega
  simp [hstat, hopen, h1]

/-- A poll after `bytes` were appended to a file whose end the cursor was at:
the read loop runs on exactly the appended bytes and the cursor moves to the
new end of the file. -/
theorem poll_appended (glyphs : Nat → GMap) (file : FileState) (st : TailState)
    (bytes : List Nat) (mtime : Int)
    (hstat : file.stat_ok = true) (hopen : file.open_ok = true)
    (hpos : st.last_file_pos = file.st_size) (hne : bytes ≠ []) :
    poll_log_file glyphs (file.append bytes mtime) st =
      { state :=
          { chat := (read_loop glyphs bytes.length bytes st.chat []).chat,
            last_file_pos := (file.append bytes mtime).st_size,
            last_mod_time := mtime,
            RATE := RATE_RESET },
        emitted := (read_loop glyphs bytes.length bytes st.chat []).emitted } := by
  have hlen : 0 < bytes.length := List.length_pos.mpr hne
  have hgrow : st.last_file_pos < (file.append bytes mtime).st_size := by
    simp only [hpos, FileState.st_size, FileState.append, List.length_append, Nat.cast_add]
    omega
  have hdrop : (file.append bytes mtime).content.drop st.last_file_pos.toNat = bytes := by
    simp [hpos, FileState.st_size, FileState.append]
  rw [poll_slow_path glyphs (file.append bytes mtime) st (by simpa [FileState.append] using hstat)
    (by simpa [FileState.append] using hopen) hgrow, hdrop,
    read_loop_rest glyphs bytes.length bytes st.chat [] (le_refl _)]
  simp [hpos, FileState.st_size, FileState.append]

/-- A poll when nothing was appended hands nothing to `add_chat_entry`. -/
theorem poll_appended_nothing (glyphs : Nat → GMap) (file : FileState) (st : TailState)
    (mtime : Int) (hpos : st.last_file_pos = file.st_size) :
    (poll_log_file glyphs (file.append [] mtime) st).emitted = [] ∧
    (poll_log_file glyphs (file.append [] mtime) st).state.chat = st.chat := by
  have hdrop : List.drop file.st_size.toNat file.content = [] := by
    simp [FileState.st_size]
  unfold poll_log_file
  split
  · exact ⟨rfl, rfl⟩
  · split
    · exact ⟨rfl, rfl⟩
    · split
      · exact ⟨rfl, rfl⟩
      · simp only [FileState.append, List.append_nil, hpos, hdrop, List.length_nil, read_loop,
          and_self]

/-- A poll after complete lines `body` and one more chunk `bytes` were appended:
the lines of `body` are handed over as when `body` alone was appended, then the
chunk. -/
theorem poll_appended_body_chunk (glyphs : Nat → GMap) (file : FileState) (st : TailState)
    (body bytes chunk : List Nat) (mtime0 mtime : Int)
    (hstat : file.stat_ok = true) (hopen : file.open_ok = true)
    (hpos : st.last_file_pos = file.st_size)
    (hbody : body = [] ∨ ∃ b : List Nat, body = b ++ [10])
    (hne : bytes ≠ []) (hscan : fgets_scan 1023 bytes = (chunk, [])) :
    poll_log_file glyphs (file.append (body ++ bytes) mtime) st =
      { state :=
          { chat := add_chat_entry glyphs
              (poll_log_file glyphs (file.append body mtime0) st).state.chat
              (trim_newline (c_string chunk)),
            last_file_pos := (file.append (body ++ bytes) mtime).st_size,
            last_mod_time := mtime,
            RATE := RATE_RESET },
        emitted := (poll_log_file glyphs (file.append body mtime0) st).emitted ++
          [trim_newline (c_string chunk)] } := by
  rw [poll_appended glyphs file st (body ++ bytes) mtime hstat hopen hpos (by simp [hne])]
  rcases hbody with rfl | ⟨b, rfl⟩
  · obtain ⟨h1, h2⟩ := poll_appended_nothing glyphs file st mtime0 hpos
    rw [h1, h2, List.nil_append, read_loop_chunk glyphs bytes chunk st.chat [] hne hscan]
  · obtain ⟨c, cs, rfl⟩ : ∃ c cs, bytes = c :: cs := by
      cases bytes with
      | nil => exact absurd rfl hne
      | cons c cs => exact ⟨c, cs, rfl⟩
    have happ : b ++ [10] ++ c :: cs = b ++ 10 :: (c :: cs) := by simp
    rw [poll_appended glyphs file st (b ++ [10]) mtime0 hstat hopen hpos (by simp), happ,
      read_loop_body glyphs b.length b (c :: cs) st.chat [] (le_refl _),
      read_loop_chunk glyphs (c :: cs) chunk _ _ hne hscan]

/-- A poll after `bytes` were appended to a file whose end the cursor was at,
when one `fgets` call reads all of `bytes`. -/
theorem poll_appended_chunk (glyphs : Nat → GMap) (file : FileState) (st : TailState)
    (bytes chunk : List Nat) (mtime : Int)
    (hstat : file.stat_ok = true) (hopen : file.open_ok = true)
    (hpos : st.last_file_pos = file.st_size) (hne : bytes ≠ [])
    (hscan : fgets_scan 1023 bytes = (chunk, [])) :
    poll_log_file glyphs (file.append bytes mtime) st =
      { state :=
          { chat := add_chat_entry glyphs st.chat (trim_newline (c_string chunk)),
            last_file_pos := (file.append bytes mtime).st_size,
            last_mod_time := mtime,
            RATE := RATE_RESET },
        emitted := [trim_newline (c_string chunk)] } := by
  rw [poll_appended glyphs file st bytes mtime hstat hopen hpos hne,
    read_loop_chunk glyphs bytes chunk st.chat [] hne hscan]
  rfl

theorem poll_fast_path (glyphs : Nat → GMap) (file : FileState) (st : TailState)
    (h : file.st_mtime ≤ st.last_mod_time ∧ file.st_size ≤ st.last_file_pos) :
    poll_log_file glyphs file st = { state := st, emitted := [] } := by
  unfold poll_log_file
  by_cases hstat : file.stat_ok = false
  · simp [hstat]
  · simp [hstat, h]

theorem poll_cursor_after (glyphs : Nat → GMap) (file : FileState) (st : TailState)
    (hstat : file.stat_ok = true) (hopen : file.open_ok = true)
    (hslow : ¬ (file.st_mtime ≤ st.last_mod_time ∧ file.st_size ≤ st.last_file_pos)) :
    (poll_log_file glyphs file st).state.last_mod_time = file.st_mtime ∧
      file.st_size ≤ (poll_log_file glyphs file st).state.last_file_pos := by
  unfold poll_log_file
  simp only [hstat, hopen, hslow, if_false, Bool.true_eq_false]
  rw [read_loop_rest glyphs _ _ _ _ (le_refl _)]
  simp only [FileState.st_size, List.length_drop, List.length_nil, Nat.cast_zero, sub_zero,
    true_and]
  omega

theorem add_chat_entry_last (glyphs : Nat → GMap) (s : ChatLog) (line : CStr)
    (hne : line ≠ []) :
    ((add_chat_entry glyphs s line).chat_log.getLast?).map ChatEntry.original_line
      = some line := by
  have h := add_chat_entry_cap_log MAX_ENTRIES glyphs s line hne
  have hmap : ((add_chat_entry glyphs s line).chat_log.getLast?).map ChatEntry.original_line
      = ((add_chat_entry glyphs s line).chat_log.map ChatEntry.original_line).getLast? := by
    rw [List.getLast?_map]
  rw [hmap]
  show ((add_chat_entry_cap MAX_ENTRIES glyphs s line).chat_log.map
    ChatEntry.original_line).getLast? = some line
  rw [h]
  cases hlog : s.chat_log with
  | nil => simp [MAX_ENTRIES]
  | cons e es =>
    split
    · simp only [List.map_cons, List.cons_append, List.tail_cons]
      exact List.getLast?_concat _
    · exact List.getLast?_concat _

/-! ## Rendering -/

theorem truncQ_ge_one (RATE : ℚ) (h : 1 ≤ RATE) : 1 ≤ truncQ RATE := by
  unfold truncQ
  rw [if_pos (by linarith)]
  exact Int.le_floor.mpr (by simpa using h)

theorem truncQ_le (RATE : ℚ) (h : 0 ≤ RATE) : (truncQ RATE : ℚ) ≤ RATE := by
  unfold truncQ
  rw [if_pos h]
  exact Int.floor_le RATE

theorem truncQ_range (x h : ℚ) (hpos : 0 < h) (hlo : -h ≤ x) (hhi : x < h) :
    -h ≤ (truncQ x : ℚ) ∧ (truncQ x : ℚ) < h := by
  unfold truncQ
  by_cases hx : 0 ≤ x
  · rw [if_pos hx]
    have h1 : ((⌊x⌋ : Int) : ℚ) ≤ x := Int.floor_le x
    have h2 : (0 : ℚ) ≤ ((⌊x⌋ : Int) : ℚ) := by
      exact_mod_cast Int.floor_nonneg.mpr hx
    constructor <;> linarith
  · rw [if_neg hx]
    have h1 : x ≤ ((⌈x⌉ : Int) : ℚ) := Int.le_ceil x
    have h2 : ((⌈x⌉ : Int) : ℚ) ≤ 0 := by
      have : ⌈x⌉ ≤ 0 := Int.ceil_le.mpr (by push_cast; linarith)
      exact_mod_cast this
    constructor <;> linarith

theorem roundHalfEven_intCast (z : Int) : roundHalfEven (z : ℚ) = z := by
  unfold roundHalfEven
  simp

theorem f32_exact (N t : Int) (hN : |N| < 2 ^ 24) :
    f32 ((N : ℚ) * (2 : ℚ) ^ t) = (N : ℚ) * (2 : ℚ) ^ t := by
  unfold f32
  by_cases hx : (N : ℚ) * (2 : ℚ) ^ t = 0
  · simp [hx]
  · rw [if_neg hx]
    have h2 : (0 : ℚ) < 2 := by norm_num
    have hpos : 0 < |(N : ℚ) * (2 : ℚ) ^ t| := abs_pos.mpr hx
    have hNq : |(N : ℚ)| < 2 ^ (24 : ℤ) := by
      have h1 : ((|N| : Int) : ℚ) < ((2 ^ 24 : Int) : ℚ) := by exact_mod_cast hN
      have h3 : (2 : ℚ) ^ (24 : ℤ) = ((2 ^ 24 : Int) : ℚ) := by norm_num
      rw [h3]
      rw [Int.cast_abs] at h1
      exact h1
    have habs : |(N : ℚ) * (2 : ℚ) ^ t| < (2 : ℚ) ^ (24 + t) := by
      rw [abs_mul, abs_of_pos (zpow_pos h2 t), zpow_add₀ (by norm_num : (2 : ℚ) ≠ 0)]
      exact mul_lt_mul_of_pos_right hNq (zpow_pos h2 t)
    have hlog : Int.log 2 |(N : ℚ) * (2 : ℚ) ^ t| < 24 + t := by
      have := (Int.lt_zpow_iff_log_lt (R := ℚ) (b := 2) (by norm_num) hpos).mp
        (by simpa using habs)
      exact this
    obtain ⟨d, hd⟩ : ∃ d : ℕ, t - (Int.log 2 |(N : ℚ) * (2 : ℚ) ^ t| - 23) = (d : ℤ) :=
      ⟨(t - (Int.log 2 |(N : ℚ) * (2 : ℚ) ^ t| - 23)).toNat, by omega⟩
    have hdiv : (N : ℚ) * (2 : ℚ) ^ t / (2 : ℚ) ^ (Int.log 2 |(N : ℚ) * (2 : ℚ) ^ t| - 23)
        = ((N * 2 ^ d : Int) : ℚ) := by
      rw [mul_div_assoc, ← zpow_sub₀ (by norm_num : (2 : ℚ) ≠ 0), hd, zpow_natCast]
      push_cast
      ring
    rw [hdiv, roundHalfEven_intCast]
    push_cast
    rw [mul_assoc, ← zpow_natCast, ← hd, ← zpow_add₀ (by norm_num : (2 : ℚ) ≠ 0)]
    congr 2
    ring

theorem f32_int_exact (n : Int) (hn : |n| < 2 ^ 24) : f32 (n : ℚ) = n := by
  have := f32_exact n 0 hn
  simpa using this

theorem f32_two_pow_24 : f32 (16777216 : ℚ) = 16777216 := by
  have := f32_exact 8388608 1 (by norm_num)
  norm_num at this
  exact this

theorem f32_two_pow_24_add_one : f32 (16777217 : ℚ) = 16777216 := by
  have hlog : Int.log 2 |(16777217 : ℚ)| = 24 := by
    have h1 : |(16777217 : ℚ)| = ((16777217 : ℕ) : ℚ) := by norm_num
    rw [h1, Int.log_natCast]
    have : Nat.log 2 16777217 = 24 := by rw [Nat.log_eq_iff] <;> norm_num
    rw [this]; rfl
  have hfloor : ⌊(16777217 : ℚ) / 2⌋ = 8388608 := by
    rw [Int.floor_eq_iff]; norm_num
  unfold f32
  rw [if_neg (by norm_num), hlog]
  have hu : (2 : ℚ) ^ ((24 : ℤ) - 23) = 2 := by norm_num
  rw [hu]
  unfold roundHalfEven
  rw [hfloor]
  norm_num

theorem f32_two_pow_24_add_three : f32 (16777219 : ℚ) = 16777220 := by
  have hlog : Int.log 2 |(16777219 : ℚ)| = 24 := by
    have h1 : |(16777219 : ℚ)| = ((16777219 : ℕ) : ℚ) := by norm_num
    rw [h1, Int.log_natCast]
    have : Nat.log 2 16777219 = 24 := by rw [Nat.log_eq_iff] <;> norm_num
    rw [this]; rfl
  have hfloor : ⌊(16777219 : ℚ) / 2⌋ = 8388609 := by
    rw [Int.floor_eq_iff]; norm_num
  unfold f32
  rw [if_neg (by norm_num), hlog]
  have hu : (2 : ℚ) ^ ((24 : ℤ) - 23) = 2 := by norm_num
  rw [hu]
  unfold roundHalfEven
  rw [hfloor]
  norm_num
/-! ## The jitter offsets -/

theorem i2f_small (m : Int) (h0 : 0 ≤ m) (h1 : m ≤ 16777218) :
    ∃ a : Int, i2f m = (a : ℚ) ∧ 0 ≤ a ∧ a ≤ m := by
  unfold i2f
  by_cases hlt : m < 2 ^ 24
  · exact ⟨m, f32_int_exact m (by rw [abs_of_nonneg h0]; exact hlt), h0, le_refl _⟩
  · have hcases : m = 16777216 ∨ m = 16777217 ∨ m = 16777218 := by
      norm_num at hlt; omega
    rcases hcases with rfl | rfl | rfl
    · exact ⟨16777216, by exact_mod_cast f32_two_pow_24, by norm_num, by norm_num⟩
    · exact ⟨16777216, by exact_mod_cast f32_two_pow_24_add_one, by norm_num, by norm_num⟩
    · refine ⟨16777218, ?_, by norm_num, by norm_num⟩
      have := f32_exact 8388609 1 (by norm_num)
      norm_num at this
      exact_mod_cast this

theorem f32_half (RATE : ℚ) (M e : Int) (hrep : RATE = (M : ℚ) * (2 : ℚ) ^ e)
    (hM : |M| < 2 ^ 24) : f32 (RATE / 2) = RATE / 2 := by
  have h : RATE / 2 = (M : ℚ) * (2 : ℚ) ^ (e - 1) := by
    rw [hrep, zpow_sub₀ (by norm_num : (2 : ℚ) ≠ 0)]
    simp only [zpow_one]
    ring
  rw [h]
  exact f32_exact M (e - 1) hM

theorem f32_difference (RATE : ℚ) (M e a : Int) (hrep : RATE = (M : ℚ) * (2 : ℚ) ^ e)
    (hM : |M| < 2 ^ 24) (hlo : 0 < RATE) (hhi : RATE < 16777220)
    (hx : |(a : ℚ) - RATE / 2| ≤ RATE / 2) :
    f32 ((a : ℚ) - RATE / 2) = (a : ℚ) - RATE / 2 := by
  have h2 : (0 : ℚ) < 2 := by norm_num
  have h2ne : (2 : ℚ) ≠ 0 := by norm_num
  have hMpos : (0 : ℚ) < (M : ℚ) := by
    rw [hrep] at hlo
    exact (pos_iff_pos_of_mul_pos hlo).mpr (zpow_pos h2 e)
  have hMpos' : 0 < M := by exact_mod_cast hMpos
  by_cases he : 1 ≤ e
  · -- `RATE / 2` is an integer
    obtain ⟨d, hd⟩ : ∃ d : ℕ, e - 1 = (d : ℤ) := ⟨(e - 1).toNat, by omega⟩
    have hhalf : RATE / 2 = ((M * 2 ^ d : Int) : ℚ) := by
      rw [hrep]
      have : e = (d : ℤ) + 1 := by omega
      rw [this, zpow_add₀ h2ne, zpow_natCast]
      push_cast
      simp only [zpow_one]
      ring
    have hN : |a - M * 2 ^ d| < 2 ^ 24 := by
      have h1 : |((a - M * 2 ^ d : Int) : ℚ)| < ((2 ^ 24 : Int) : ℚ) := by
        have : ((a - M * 2 ^ d : Int) : ℚ) = (a : ℚ) - RATE / 2 := by
          rw [hhalf]; push_cast; ring
        rw [this]
        have h3 : ((2 ^ 24 : Int) : ℚ) = 16777216 := by norm_num
        rw [h3]
        linarith
      rw [← Int.cast_abs] at h1
      exact_mod_cast h1
    have := f32_exact (a - M * 2 ^ d) 0 hN
    rw [hhalf]
    simpa using this
  · -- the unit in the last place of `RATE / 2` is at most one half
    obtain ⟨d, hd⟩ : ∃ d : ℕ, 1 - e = (d : ℤ) := ⟨(1 - e).toNat, by omega⟩
    have hpow : (2 : ℚ) ^ (e - 1) * (2 : ℚ) ^ d = 1 := by
      rw [← zpow_natCast, ← zpow_add₀ h2ne]
      have : e - 1 + (d : ℤ) = 0 := by omega
      rw [this, zpow_zero]
    have hhalf : RATE / 2 = (M : ℚ) * (2 : ℚ) ^ (e - 1) := by
      rw [hrep, zpow_sub₀ h2ne]
      simp only [zpow_one]
      ring
    have hq : (2 : ℚ) ^ d * (2 : ℚ) ^ (e - 1) = 1 := by rw [mul_comm]; exact hpow
    have hxrep : (a : ℚ) - RATE / 2 = ((a * 2 ^ d - M : Int) : ℚ) * (2 : ℚ) ^ (e - 1) := by
      rw [hhalf]
      push_cast
      calc (a : ℚ) - (M : ℚ) * (2 : ℚ) ^ (e - 1)
          = (a : ℚ) * ((2 : ℚ) ^ d * (2 : ℚ) ^ (e - 1)) - (M : ℚ) * (2 : ℚ) ^ (e - 1) := by
            rw [hq, mul_one]
        _ = ((a : ℚ) * (2 : ℚ) ^ d - (M : ℚ)) * (2 : ℚ) ^ (e - 1) := by ring
    have hN : |a * 2 ^ d - M| < 2 ^ 24 := by
      have hle : |((a * 2 ^ d - M : Int) : ℚ)| ≤ (M : ℚ) := by
        have hp : (0 : ℚ) < (2 : ℚ) ^ (e - 1) := zpow_pos h2 _
        have h3 : |((a * 2 ^ d - M : Int) : ℚ)| * (2 : ℚ) ^ (e - 1) ≤
            (M : ℚ) * (2 : ℚ) ^ (e - 1) := by
          calc |((a * 2 ^ d - M : Int) : ℚ)| * (2 : ℚ) ^ (e - 1)
              = |((a * 2 ^ d - M : Int) : ℚ) * (2 : ℚ) ^ (e - 1)| := by
                rw [abs_mul, abs_of_pos hp]
            _ = |(a : ℚ) - RATE / 2| := by rw [hxrep]
            _ ≤ RATE / 2 := hx
            _ = (M : ℚ) * (2 : ℚ) ^ (e - 1) := hhalf
        exact le_of_mul_le_mul_right h3 hp
      rw [← Int.cast_abs] at hle
      have hle' : |a * 2 ^ d - M| ≤ M := by exact_mod_cast hle
      have hMlt : M < 2 ^ 24 := lt_of_le_of_lt (le_abs_self M) hM
      omega
    rw [hxrep]
    exact f32_exact (a * 2 ^ d - M) (e - 1) hN

theorem jitter_offset_bounds (RATE : ℚ) (M e v : Int) (hrep : RATE = (M : ℚ) * (2 : ℚ) ^ e)
    (hM : |M| < 2 ^ 24) (hlo : 1 ≤ RATE) (hhi : RATE < 16777220) (hv : 0 ≤ v) :
    -(RATE / 2) ≤ (jitter_offset RATE v : ℚ) ∧ (jitter_offset RATE v : ℚ) < RATE / 2 := by
  unfold jitter_offset
  have hk := truncQ_ge_one RATE hlo
  have hkR := truncQ_le RATE (by linarith)
  have hm0 : 0 ≤ Int.tmod v (truncQ RATE) := Int.tmod_nonneg _ hv
  have hm1 : Int.tmod v (truncQ RATE) < truncQ RATE := Int.tmod_lt_of_pos _ (by omega)
  have hkhi : truncQ RATE ≤ 16777219 := by
    have h1 : (truncQ RATE : ℚ) < ((16777220 : Int) : ℚ) := by
      push_cast; linarith
    have h2 : truncQ RATE < 16777220 := by exact_mod_cast h1
    omega
  obtain ⟨a, ha, ha0, ham⟩ := i2f_small (Int.tmod v (truncQ RATE)) hm0 (by omega)
  have ha0q : (0 : ℚ) ≤ (a : ℚ) := by exact_mod_cast ha0
  have ha1q : (a : ℚ) + 1 ≤ (truncQ RATE : ℚ) := by
    have : a + 1 ≤ truncQ RATE := by omega
    exact_mod_cast this
  have hx : |(a : ℚ) - RATE / 2| ≤ RATE / 2 := by
    rw [abs_le]
    constructor <;> linarith
  rw [ha, f32_half RATE M e hrep hM,
    f32_difference RATE M e a hrep hM (by linarith) hhi hx]
  apply truncQ_range
  · linarith
  · linarith
  · linarith
/-! ## The fixed buffers -/

theorem fgets_scan_chunk_le (k : Nat) : ∀ (s : List Nat), (fgets_scan k s).1.length ≤ k := by
  induction k with
  | zero => intro s; simp [fgets_scan]
  | succ k ih =>
    intro s
    cases s with
    | nil => simp [fgets_scan]
    | cons c cs =>
      by_cases hc : c = 10
      · simp [fgets_scan, hc]
      · simp only [fgets_scan, hc, if_false, List.length_cons]
        have := ih cs
        omega

theorem strtok_lengths (s w r : CStr) (h : strtok s = some (w, r)) :
    w.length + r.length ≤ s.length ∧ (r ≠ [] → w.length + r.length + 1 ≤ s.length) := by
  induction s with
  | nil => simp [strtok] at h
  | cons c cs ih =>
    cases hc : isDelim c with
    | true =>
      rw [strtok_cons_delim c cs hc] at h
      obtain ⟨h1, h2⟩ := ih h
      simp only [List.length_cons]
      exact ⟨by omega, fun hr => by have := h2 hr; omega⟩
    | false =>
      rw [strtok_cons_word c cs hc] at h
      simp only [Option.some.injEq, Prod.mk.injEq] at h
      obtain ⟨rfl, rfl⟩ := h
      have hsplit := congrArg List.length
        (List.takeWhile_append_dropWhile (fun d => !isDelim d) (c :: cs))
      simp only [List.length_append] at hsplit
      simp only [List.length_drop]
      refine ⟨by omega, fun hr => ?_⟩
      have hpos : 0 < (List.drop 1 (List.dropWhile (fun d => !isDelim d) (c :: cs))).length :=
        List.length_pos.mpr hr
      simp only [List.length_drop] at hpos
      omega

theorem joinedLen_inputWords (n : Nat) : ∀ (s : CStr), s.length ≤ n →
    joinedLen (inputWords s) ≤ s.length + 1 := by
  induction n with
  | zero =>
    intro s hs
    have : s = [] := List.length_eq_zero.mp (by omega)
    subst this
    simp [inputWords_nil, joinedLen]
  | succ n ih =>
    intro s hs
    rw [inputWords_strtok]
    cases hst : strtok s with
    | none => simp [joinedLen]
    | some p =>
      obtain ⟨w, r⟩ := p
      obtain ⟨h1, h2⟩ := strtok_lengths s w r hst
      have hlt := strtok_length s w r hst
      have hr := ih r (by omega)
      simp only [joinedLen, List.map_cons, List.sum_cons] at hr ⊢
      by_cases hnil : r = []
      · subst hnil
        simp only [inputWords_nil, List.map_nil, List.sum_nil, List.length_nil] at h1 ⊢
        omega
      · have := h2 hnil
        omega

theorem joinedLen_append (a b : List CStr) :
    joinedLen (a ++ b) = joinedLen a + joinedLen b := by
  simp [joinedLen]

theorem wrap_step_bufInv (glyphs : Nat → GMap) (max_width_pixels : Int) (bound : Nat)
    (st : WrapState) (word : CStr) (h : BufInv bound st) :
    BufInv (bound + (word.length + 1)) (wrap_step glyphs max_width_pixels st word) := by
  obtain ⟨hlines, hcur⟩ := h
  unfold wrap_step
  by_cases hlen : st.current_line.length > 0
  · have hne : st.current_line ≠ [] := by
      intro h0; rw [h0] at hlen; simp at hlen
    have hc := hcur hne
    simp only [hlen, if_true, and_true]
    split
    · refine ⟨?_, fun _ => by show word.length + 1 ≤ bound + (word.length + 1); omega⟩
      intro l hl
      rcases List.mem_append.mp hl with h1 | h1
      · have := hlines l h1; omega
      · rw [List.mem_singleton.mp h1]; omega
    · refine ⟨fun l hl => by have := hlines l hl; omega, fun _ => ?_⟩
      simp only [List.length_append, List.length_singleton]
      omega
  · have hnil : st.current_line = [] := by
      cases hc : st.current_line with
      | nil => rfl
      | cons a b => rw [hc] at hlen; simp at hlen
    simp only [hlen, and_false, if_false]
    refine ⟨fun l hl => by have := hlines l hl; omega, fun _ => ?_⟩
    simp only [hnil, List.nil_append]
    omega

theorem foldl_bufInv (glyphs : Nat → GMap) (max_width_pixels : Int) (ws : List CStr) :
    ∀ (bound : Nat) (st : WrapState), BufInv bound st →
      BufInv (bound + joinedLen ws) (ws.foldl (wrap_step glyphs max_width_pixels) st) := by
  induction ws with
  | nil => intro bound st h; simpa [joinedLen] using h
  | cons w ws ih =>
    intro bound st h
    have := ih _ _ (wrap_step_bufInv glyphs max_width_pixels bound st w h)
    simp only [List.foldl_cons]
    have hj : bound + joinedLen (w :: ws) = bound + (w.length + 1) + joinedLen ws := by
      simp only [joinedLen, List.map_cons, List.sum_cons]; omega
    rw [hj]
    exact this

/-- The line buffer never holds more characters than the text has: after any
number of rounds of the loop of `wrap_text`, the pending line and the pushed
lines are at most as long as the text. For a text of at most 1023 characters,
all `add_chat_entry` passes in, the line and its NUL fit the 1024-byte buffer
`current_line`. -/
theorem wrap_text_buffer_fits (glyphs : Nat → GMap) (text : CStr) (max_width_pixels : Int)
    (done todo : List CStr) (hsplit : inputWords text = done ++ todo) :
    (done.foldl (wrap_step glyphs max_width_pixels) wrap_init).current_line.length
      ≤ text.length ∧
    ∀ l ∈ (done.foldl (wrap_step glyphs max_width_pixels) wrap_init).lines,
      l.length ≤ text.length := by
  have hinit : BufInv 0 wrap_init := by
    constructor <;> simp [wrap_init]
  obtain ⟨hlines, hcur⟩ := foldl_bufInv glyphs max_width_pixels done 0 wrap_init hinit
  have htotal := joinedLen_inputWords text.length text (le_refl _)
  rw [hsplit, joinedLen_append] at htotal
  constructor
  · by_cases hnil : (done.foldl (wrap_step glyphs max_width_pixels) wrap_init).current_line = []
    · rw [hnil]; simp
    · have := hcur hnil
      omega
  · intro l hl
    have := hlines l hl
    omega

/-- Every string handed to `add_chat_entry` by the read loop has at most 1023
characters. -/
theorem read_loop_emitted_length (glyphs : Nat → GMap) (fuel : Nat) :
    ∀ (stream : List Nat) (chat : ChatLog) (emitted : List CStr),
      (∀ l ∈ emitted, l.length ≤ 1023) →
      ∀ l ∈ (read_loop glyphs fuel stream chat emitted).emitted, l.length ≤ 1023 := by
  induction fuel with
  | zero => intro stream chat emitted h; simpa [read_loop] using h
  | succ n ih =>
    intro stream chat emitted h
    cases stream with
    | nil => simpa [read_loop, fgets] using h
    | cons c cs =>
      simp only [read_loop, fgets]
      apply ih
      intro l hl
      rcases List.mem_append.mp hl with h1 | h1
      · exact h l h1
      · rw [List.mem_singleton.mp h1]
        have hscan : (fgets_scan (1024 - 1) (c :: cs)).1.length ≤ 1023 := by
          have := fgets_scan_chunk_le 1023 (c :: cs)
          simpa using this
        have hc : (c_string (fgets_scan (1024 - 1) (c :: cs)).1).length ≤
            (fgets_scan (1024 - 1) (c :: cs)).1.length :=
          (List.takeWhile_sublist _).length_le
        have ht : (trim_newline (c_string (fgets_scan (1024 - 1) (c :: cs)).1)).length ≤
            (c_string (fgets_scan (1024 - 1) (c :: cs)).1).length := by
          unfold trim_newline
          split
          · simp
          · exact le_refl _
        omega
/-! ## A single word -/

theorem inputWords_single (pre word post : CStr)
    (hpre : ∀ c ∈ pre, isDelim c = true) (hpost : ∀ c ∈ post, isDelim c = true)
    (hne : word ≠ []) (hword : ∀ c ∈ word, isDelim c = false) :
    inputWords (pre ++ word ++ post) = [word] := by
  induction pre with
  | cons d ds ih =>
    rw [List.cons_append, List.cons_append,
      inputWords_cons_delim d _ (hpre d (List.mem_cons_self _ _))]
    exact ih (fun c hc => hpre c (List.mem_cons_of_mem _ hc))
  | nil =>
    rw [List.nil_append]
    cases word with
    | nil => exact absurd rfl hne
    | cons c cs =>
      have hc : isDelim c = false := hword c (List.mem_cons_self _ _)
      have htake : ((c :: cs) ++ post).takeWhile (fun d => !isDelim d) = c :: cs := by
        rw [List.takeWhile_append_of_pos (by
          intro x hx
          simp [hword x hx])]
        cases post with
        | nil => simp
        | cons p ps =>
          simp [List.takeWhile, hpost p (List.mem_cons_self _ _)]
      have hdrop : ((c :: cs) ++ post).dropWhile (fun d => !isDelim d) = post := by
        rw [List.dropWhile_append_of_pos (by
          intro x hx
          simp [hword x hx])]
        cases post with
        | nil => simp
        | cons p ps =>
          simp [List.dropWhile, hpost p (List.mem_cons_self _ _)]
      have hcons : (c :: cs) ++ post = c :: (cs ++ post) := rfl
      have h := inputWords_cons_word c (cs ++ post) hc
      rw [← hcons, htake, hdrop] at h
      rw [h, inputWords_blank (post.drop 1) (fun d hd => hpost d (List.mem_of_mem_drop hd))]

theorem wrap_text_single_word (glyphs : Nat → GMap) (text word : CStr)
    (max_width_pixels : Int) (h : inputWords text = [word]) (hne : word ≠ []) :
    wrap_text glyphs text max_width_pixels = [word] := by
  have hlen : word.length > 0 := List.length_pos.mpr hne
  rw [wrap_text_eq_foldl, h]
  simp [wrap_step, wrap_init, wrap_flush, hlen]
/-! ## Greedy line breaks -/

theorem firstWord_word (w : CStr) (hw : ∀ c ∈ w, isDelim c = false) : firstWord w = w := by
  unfold firstWord
  rw [List.takeWhile_eq_self_iff]
  intro c hc
  have h := hw c hc
  have : c ≠ 32 := by
    intro h32; rw [h32] at h; simp [isDelim] at h
  simpa using this

theorem firstWord_append_space (a b : CStr) :
    firstWord (a ++ 32 :: b) = firstWord a := by
  unfold firstWord
  induction a with
  | nil => simp [List.takeWhile]
  | cons c cs ih =>
    by_cases hc : c = 32
    · simp [List.takeWhile, hc]
    · simp only [List.cons_append, List.takeWhile_cons, bne_iff_ne, ne_eq, hc,
        not_false_eq_true, decide_True, if_true, ih]

theorem chain_replace_last (R : CStr → CStr → Prop) (ls : List CStr) (c c2 : CStr)
    (h : List.Chain' R (ls ++ [c])) (hR : ∀ A, R A c → R A c2) :
    List.Chain' R (ls ++ [c2]) := by
  rw [List.chain'_append] at h ⊢
  obtain ⟨h1, -, h3⟩ := h
  refine ⟨h1, List.chain'_singleton _, ?_⟩
  intro x hx y hy
  simp only [List.head?_cons, Option.mem_def, Option.some.injEq] at hy
  subst hy
  exact hR x (h3 x hx c (by simp))

theorem wrap_step_greedyInv (glyphs : Nat → GMap) (max_width_pixels : Int)
    (st : WrapState) (word : CStr) (hne : word ≠ [])
    (hw : ∀ c ∈ word, isDelim c = false)
    (hinv : GreedyInv glyphs max_width_pixels st) :
    GreedyInv glyphs max_width_pixels (wrap_step glyphs max_width_pixels st word) := by
  obtain ⟨hadv, hempty, hchain⟩ := hinv
  unfold wrap_step
  simp only [word_advance_eq]
  by_cases hlen : st.current_line.length > 0
  · have hcur : st.current_line ≠ [] := by
      intro h; rw [h] at hlen; simp at hlen
    simp only [hlen, if_true, and_true]
    by_cases hover : st.current_advance + SPACE_ADVANCE + pixel_width glyphs word
        > max_width_pixels
    · rw [if_pos hover]
      refine ⟨rfl, fun h => absurd h hne, ?_⟩
      apply List.Chain'.append hchain (List.chain'_singleton _)
      intro x hx y hy
      simp only [List.getLast?_append, List.getLast?_singleton, Option.or_some,
        Option.mem_def, Option.some.injEq] at hx
      simp only [List.head?_cons, Option.mem_def, Option.some.injEq] at hy
      subst hx; subst hy
      unfold NoFit
      rw [firstWord_word word hw, ← hadv]
      exact hover
    · rw [if_neg hover]
      refine ⟨?_, fun h => by simp at h, ?_⟩
      · rw [pixel_width_append, pixel_width_append, pixel_width_space, hadv]
      · apply chain_replace_last _ _ _ _ hchain
        intro A hA
        unfold NoFit at hA ⊢
        have : st.current_line ++ [32] ++ word = st.current_line ++ 32 :: word := by simp
        rw [this, firstWord_append_space]
        exact hA
  · have hnil : st.current_line = [] := by
      cases hc : st.current_line with
      | nil => rfl
      | cons a b => rw [hc] at hlen; simp at hlen
    simp only [hlen, and_false, if_false]
    have hl := hempty hnil
    refine ⟨?_, fun _ => hl, ?_⟩
    · simp [hnil, hadv, pixel_width]
    · rw [hl, hnil]
      exact List.chain'_singleton _

theorem foldl_greedyInv (glyphs : Nat → GMap) (max_width_pixels : Int) (ws : List CStr) :
    ∀ (st : WrapState), (∀ w ∈ ws, w ≠ [] ∧ ∀ c ∈ w, isDelim c = false) →
      GreedyInv glyphs max_width_pixels st →
      GreedyInv glyphs max_width_pixels
        (ws.foldl (wrap_step glyphs max_width_pixels) st) := by
  induction ws with
  | nil => intro st _ h; exact h
  | cons w ws ih =>
    intro st hws h
    simp only [List.foldl_cons]
    exact ih _ (fun v hv => hws v (List.mem_cons_of_mem _ hv))
      (wrap_step_greedyInv glyphs max_width_pixels st w (hws w (List.mem_cons_self _ _)).1
        (hws w (List.mem_cons_self _ _)).2 h)

theorem wrap_text_chain (glyphs : Nat → GMap) (text : CStr) (max_width_pixels : Int) :
    List.Chain' (NoFit glyphs max_width_pixels) (wrap_text glyphs text max_width_pixels) := by
  have hinit : GreedyInv glyphs max_width_pixels wrap_init :=
    ⟨by simp [wrap_init, pixel_width], fun _ => rfl, by
      simp only [wrap_init, List.nil_append]; exact List.chain'_singleton _⟩
  obtain ⟨-, hempty, hchain⟩ := foldl_greedyInv glyphs max_width_pixels (inputWords text)
    wrap_init (inputWords_word text.length text (le_refl _)) hinit
  rw [wrap_text_eq_foldl]
  unfold wrap_flush
  split
  · exact hchain
  · rename_i hlen
    have hnil : (List.foldl (wrap_step glyphs max_width_pixels) wrap_init
        (inputWords text)).current_line = [] := by
      cases hc : (List.foldl (wrap_step glyphs max_width_pixels) wrap_init
        (inputWords text)).current_line with
      | nil => rfl
      | cons a b => rw [hc] at hlen; simp at hlen
    rw [hempty hnil]
    exact List.chain'_nil
/-! ## A text that fits on one line -/

theorem get_advance_pos (glyphs : Nat → GMap) (ch_code : Nat) :
    0 < get_advance glyphs ch_code := by
  unfold get_advance
  split
  · decide
  · split
    · rename_i h; exact h.2.2
    · decide

theorem pixel_width_nonneg (glyphs : Nat → GMap) (s : CStr) : 0 ≤ pixel_width glyphs s := by
  induction s with
  | nil => simp [pixel_width]
  | cons c cs ih =>
    have := get_advance_pos glyphs c
    simp only [pixel_width, List.map_cons, List.sum_cons] at ih ⊢
    omega

theorem joinWords_cons (w : CStr) (ws : List CStr) :
    joinWords (w :: ws) = w ++ (ws.map (fun v => 32 :: v)).flatten := by
  unfold joinWords
  induction ws generalizing w with
  | nil => simp [List.intercalate, List.intersperse]
  | cons v vs ih =>
    have := ih v
    simp only [List.intercalate, List.intersperse, List.flatten_cons, List.map_cons] at this ⊢
    rw [this]
    simp

theorem foldl_one_line (glyphs : Nat → GMap) (max_width_pixels : Int) (ws : List CStr) :
    ∀ (cur : CStr), cur ≠ [] →
      pixel_width glyphs (cur ++ (ws.map (fun v => 32 :: v)).flatten) ≤ max_width_pixels →
      ws.foldl (wrap_step glyphs max_width_pixels)
          { lines := [], current_line := cur, current_advance := pixel_width glyphs cur } =
        { lines := [],
          current_line := cur ++ (ws.map (fun v => 32 :: v)).flatten,
          current_advance :=
            pixel_width glyphs (cur ++ (ws.map (fun v => 32 :: v)).flatten) } := by
  induction ws with
  | nil => intro cur _ _; simp
  | cons w ws ih =>
    intro cur hcur hfit
    have hlen : cur.length > 0 := List.length_pos.mpr hcur
    have hrest := pixel_width_nonneg glyphs (ws.map (fun v => 32 :: v)).flatten
    have hsplit : cur ++ ((w :: ws).map (fun v => 32 :: v)).flatten =
        (cur ++ [32] ++ w) ++ (ws.map (fun v => 32 :: v)).flatten := by simp
    rw [hsplit] at hfit ⊢
    have hpw : pixel_width glyphs (cur ++ [32] ++ w) =
        pixel_width glyphs cur + SPACE_ADVANCE + pixel_width glyphs w := by
      rw [pixel_width_append, pixel_width_append, pixel_width_space]
    have hno : ¬ (pixel_width glyphs cur + SPACE_ADVANCE + pixel_width glyphs w
        > max_width_pixels) := by
      rw [pixel_width_append, hpw] at hfit
      omega
    have hstep : wrap_step glyphs max_width_pixels
        { lines := [], current_line := cur, current_advance := pixel_width glyphs cur } w =
        { lines := [], current_line := cur ++ [32] ++ w,
          current_advance := pixel_width glyphs (cur ++ [32] ++ w) } := by
      unfold wrap_step
      simp only [word_advance_eq, hlen, if_true, and_true, if_neg hno, hpw]
    rw [List.foldl_cons, hstep]
    exact ih (cur ++ [32] ++ w) (by simp) hfit

theorem wrap_text_one_line (glyphs : Nat → GMap) (text : CStr) (max_width_pixels : Int)
    (hword : inputWords text ≠ [])
    (hfit : pixel_width glyphs (joinWords (inputWords text)) ≤ max_width_pixels) :
    wrap_text glyphs text max_width_pixels = [joinWords (inputWords text)] := by
  have hws := inputWords_word text.length text (le_refl _)
  rw [wrap_text_eq_foldl]
  cases h : inputWords text with
  | nil => exact absurd h hword
  | cons w ws =>
    rw [h] at hfit hws
    have hne : w ≠ [] := (hws w (List.mem_cons_self _ _)).1
    have hlen : w.length > 0 := List.length_pos.mpr hne
    rw [joinWords_cons] at hfit ⊢
    have hfirst : wrap_step glyphs max_width_pixels wrap_init w =
        { lines := [], current_line := w, current_advance := pixel_width glyphs w } := by
      simp [wrap_step, wrap_init, word_advance_eq]
    rw [List.foldl_cons, hfirst, foldl_one_line glyphs max_width_pixels ws w hne hfit]
    simp [wrap_flush, hlen]

theorem wrap_text_no_word (glyphs : Nat → GMap) (text : CStr) (max_width_pixels : Int)
    (h : inputWords text = []) : wrap_text glyphs text max_width_pixels = [] := by
  rw [wrap_text_eq_foldl, h]
  rfl
/-! ## The jitter rate stays above 1 -/

theorem render_gmap_rate_cases (glyphs : Nat → GMap) (c1 c2 : Color) (rand : Nat → Int)
    (ch : Nat) (x y : Int) (colon_flag : Bool) (js : JitterState) :
    (render_gmap glyphs c1 c2 rand ch x y colon_flag js).1.RATE = js.RATE ∨
    (js.RATE > 11 / 10 ∧
      (render_gmap glyphs c1 c2 rand ch x y colon_flag js).1.RATE = js.RATE - 1 / 100) := by
  unfold render_gmap
  split
  · exact Or.inl rfl
  · split
    · exact Or.inl rfl
    · by_cases h : js.RATE > 11 / 10
      · exact Or.inr ⟨h, by simp only [if_pos h]⟩
      · exact Or.inl (by simp only [if_neg h])

theorem poll_rate_cases (glyphs : Nat → GMap) (file : FileState) (st : TailState) :
    (poll_log_file glyphs file st).state.RATE = st.RATE ∨
    (poll_log_file glyphs file st).state.RATE = RATE_RESET := by
  unfold poll_log_file
  split
  · exact Or.inl rfl
  · split
    · exact Or.inl rfl
    · split
      · exact Or.inr rfl
      · exact Or.inr rfl

theorem rate_step_gt_one (a b : ℚ) (hstep : RateStep a b) (ha : 1 < a) : 1 < b := by
  cases hstep with
  | draw glyphs c1 c2 rand ch x y colon_flag js =>
    rcases render_gmap_rate_cases glyphs c1 c2 rand ch x y colon_flag js with h | ⟨hgt, h⟩
    · rw [h]; exact ha
    · rw [h]; linarith
  | poll glyphs file st =>
    rcases poll_rate_cases glyphs file st with h | h
    · rw [h]; exact ha
    · rw [h]; norm_num [RATE_RESET]
  | bump =>
    unfold key_e RATE_RESET
    linarith

theorem rate_reachable_gt_one (r : ℚ) (h : RateReachable r) : 1 < r := by
  unfold RateReachable at h
  induction h with
  | refl => norm_num [RATE_INIT]
  | tail _ hstep ih => exact rate_step_gt_one _ _ hstep ih

theorem rate_reachable_bumps (n : Nat) :
    RateReachable (RATE_INIT + (n : ℚ) * RATE_RESET) := by
  induction n with
  | zero =>
    have : RATE_INIT + ((0 : Nat) : ℚ) * RATE_RESET = RATE_INIT := by simp
    rw [this]
    exact Relation.ReflTransGen.refl
  | succ n ih =>
    have : RATE_INIT + ((n + 1 : Nat) : ℚ) * RATE_RESET =
        key_e (RATE_INIT + (n : ℚ) * RATE_RESET) := by
      unfold key_e
      push_cast
      ring
    rw [this]
    exact Relation.ReflTransGen.tail ih (RateStep.bump _)
/-! ## Claims on wrap_text -/

/-- C1: when `max_width_pixels` is at least the pixel width of every word of
the text, every line returned by `wrap_text` has pixel width at most
`max_width_pixels`. -/
theorem wrap_text_width_le (glyphs : Nat → GMap) (text : CStr) (max_width_pixels : Int)
    (hmax : ∀ w ∈ inputWords text, pixel_width glyphs w ≤ max_width_pixels) :
    ∀ line ∈ wrap_text glyphs text max_width_pixels,
      pixel_width glyphs line ≤ max_width_pixels := by
  intro line hline
  rw [wrap_text_eq_foldl] at hline
  have hinit : WidthInv glyphs max_width_pixels wrap_init := by
    refine ⟨?_, ?_, ?_⟩ <;> simp [wrap_init, pixel_width]
  obtain ⟨-, hlines, hcur⟩ :=
    foldl_widthInv glyphs max_width_pixels (inputWords text) wrap_init hmax hinit
  unfold wrap_flush at hline
  split at hline
  · rename_i hlen
    rcases List.mem_append.mp hline with h | h
    · exact hlines line h
    · rw [List.mem_singleton.mp h]
      apply hcur
      intro h0; rw [h0] at hlen; simp at hlen
  · exact hlines line hline

theorem wrap_text_width_le_witness :
    (∀ w ∈ inputWords sampleText, pixel_width plainGlyphs w ≤ 50) ∧
      ∀ line ∈ wrap_text plainGlyphs sampleText 50, pixel_width plainGlyphs line ≤ 50 :=
  ⟨by decide, wrap_text_width_le plainGlyphs sampleText 50 (by decide)⟩

/-- C2: splitting the lines returned by `wrap_text` at their single spaces and
concatenating the pieces in order gives exactly the words of the input, its
maximal runs of characters other than space, tab and newline; none of the
pieces is empty or contains a delimiter. -/
theorem wrap_text_words (glyphs : Nat → GMap) (text : CStr) (max_width_pixels : Int) :
    linesWords (wrap_text glyphs text max_width_pixels) = inputWords text ∧
      ∀ w ∈ linesWords (wrap_text glyphs text max_width_pixels),
        w ≠ [] ∧ ∀ c ∈ w, isDelim c = false := by
  have heq : linesWords (wrap_text glyphs text max_width_pixels) = inputWords text := by
    rw [wrap_text_eq_foldl, linesWords_flush,
      foldl_words glyphs max_width_pixels (inputWords text) wrap_init
        (inputWords_word text.length text (le_refl _))]
    simp [stateWords, wrap_init, linesWords]
  refine ⟨heq, ?_⟩
  rw [heq]
  exact inputWords_word text.length text (le_refl _)

theorem wrap_text_words_witness :
    inputWords sampleText = [[97, 98], [99, 100], [101, 102, 103], [104]] ∧
    wrap_text plainGlyphs sampleText 50 = [[97, 98, 32, 99, 100], [101, 102, 103, 32, 104]] ∧
    linesWords (wrap_text plainGlyphs sampleText 50) = inputWords sampleText ∧
      ∀ w ∈ linesWords (wrap_text plainGlyphs sampleText 50),
        w ≠ [] ∧ ∀ c ∈ w, isDelim c = false :=
  ⟨by decide, by decide, wrap_text_words plainGlyphs sampleText 50⟩

/-! ## Claims on add_chat_entry -/

/-- C3: starting from the empty chat log, after `add_chat_entry` on more than
`MAX_ENTRIES` = 50 non-empty lines, `chat_log_size` is 50 and the stored
`original_line` fields are the last 50 lines in arrival order; with a limit of
2, appending "a", "b", "c" leaves "b", "c". -/
theorem eviction_keeps_newest (glyphs : Nat → GMap) (lines : List CStr)
    (hne : ∀ l ∈ lines, l ≠ []) (hN : MAX_ENTRIES < lines.length) :
    (lines.foldl (add_chat_entry glyphs) empty_chat_log).chat_log_size = 50 ∧
    ((lines.foldl (add_chat_entry glyphs) empty_chat_log).chat_log).map
        ChatEntry.original_line = lines.drop (lines.length - 50) ∧
    ((([[97], [98], [99]] : List CStr).foldl (add_chat_entry_cap 2 glyphs)
        empty_chat_log).chat_log).map ChatEntry.original_line = [[98], [99]] := by
  have h := foldl_add_chat_entry_cap MAX_ENTRIES glyphs lines hne
  have h50 : MAX_ENTRIES = 50 := rfl
  rw [h50] at h hN
  refine ⟨?_, h, ?_⟩
  · have := congrArg List.length h
    simp only [List.length_map, List.length_drop] at this
    unfold ChatLog.chat_log_size
    show (List.foldl (add_chat_entry_cap MAX_ENTRIES glyphs) empty_chat_log lines).chat_log.length = 50
    rw [h50]
    omega
  · exact foldl_add_chat_entry_cap 2 glyphs [[97], [98], [99]] (by decide)

theorem eviction_keeps_newest_witness :
    (∀ l ∈ sampleLines, l ≠ []) ∧ MAX_ENTRIES < sampleLines.length ∧
    (sampleLines.foldl (add_chat_entry plainGlyphs) empty_chat_log).chat_log_size = 50 ∧
    ((sampleLines.foldl (add_chat_entry plainGlyphs) empty_chat_log).chat_log).map
        ChatEntry.original_line = sampleLines.drop (sampleLines.length - 50) ∧
    ((([[97], [98], [99]] : List CStr).foldl (add_chat_entry_cap 2 plainGlyphs)
        empty_chat_log).chat_log).map ChatEntry.original_line = [[98], [99]] :=
  ⟨by decide, by decide,
    eviction_keeps_newest plainGlyphs sampleLines (by decide) (by decide)⟩

/-- C7, as the code behaves: a line of only spaces is not skipped, the empty
chat log holds one entry after `add_chat_entry` on " ". -/
theorem add_chat_entry_space_stored :
    (add_chat_entry scenarioGlyphs empty_chat_log [32]).chat_log_size = 1 ∧
    (add_chat_entry scenarioGlyphs empty_chat_log [32]).chat_log = [blank_entry [32]] ∧
    add_chat_entry scenarioGlyphs empty_chat_log [32] ≠ empty_chat_log := by
  decide

/-- C7 amended: `add_chat_entry` leaves the chat log unchanged on the empty
line; on a non-empty line of only spaces and tabs it stores an entry with that
`original_line`, no wrapped lines and height 0, after which the oldest entry
is evicted when the log held `MAX_ENTRIES` entries. -/
theorem add_chat_entry_blank (glyphs : Nat → GMap) (s : ChatLog) :
    add_chat_entry glyphs s [] = s ∧
    ∀ line : CStr, line ≠ [] → (∀ c ∈ line, c = 32 ∨ c = 9) →
      (add_chat_entry glyphs s line).chat_log =
        if s.chat_log_size + 1 > MAX_ENTRIES then (s.chat_log ++ [blank_entry line]).tail
        else s.chat_log ++ [blank_entry line] := by
  refine ⟨by simp [add_chat_entry, add_chat_entry_cap], ?_⟩
  intro line hne hblank
  have hlen : ¬ line.length = 0 := by
    intro h; exact hne (List.length_eq_zero.mp h)
  have hdelim : ∀ c ∈ line, isDelim c = true := by
    intro c hc
    rcases hblank c hc with h | h <;> simp [isDelim, h]
  unfold add_chat_entry add_chat_entry_cap ChatLog.chat_log_size blank_entry
  simp only [hlen, if_false, wrap_text_blank glyphs line MAX_WRAP_WIDTH hdelim,
    List.length_nil, Nat.cast_zero, zero_mul]
  split
  · rename_i h
    have h1 : s.chat_log.length + 1 > MAX_ENTRIES := by simpa using h
    rw [evict_eq_tail, if_pos h1]
  · rename_i h
    have h1 : ¬ s.chat_log.length + 1 > MAX_ENTRIES := by simpa using h
    rw [if_neg h1]

theorem add_chat_entry_blank_witness :
    add_chat_entry plainGlyphs empty_chat_log [] = empty_chat_log ∧
    ([32, 9] : CStr) ≠ [] ∧ (∀ c ∈ ([32, 9] : CStr), c = 32 ∨ c = 9) ∧
    (add_chat_entry plainGlyphs empty_chat_log [32, 9]).chat_log =
      if empty_chat_log.chat_log_size + 1 > MAX_ENTRIES then
        (empty_chat_log.chat_log ++ [blank_entry [32, 9]]).tail
      else empty_chat_log.chat_log ++ [blank_entry [32, 9]] :=
  ⟨(add_chat_entry_blank plainGlyphs empty_chat_log).1, by decide, by decide,
    (add_chat_entry_blank plainGlyphs empty_chat_log).2 [32, 9] (by decide) (by decide)⟩

/-! ## Claims on poll_log_file -/

/-- C4, as the code behaves: with the cursor at offset 0 of a file holding the
unterminated bytes "hi", the poll hands "hi" to `add_chat_entry` and moves the
cursor to offset 2, past the unterminated tail; after the newline is appended
the next poll hands over the empty string only, so the chat log still holds the
single entry "hi" and the completed line is not emitted then. -/
theorem partial_line_emitted_at_once :
    (poll_log_file scenarioGlyphs (emptyFile.append [104, 105] 1) startState).emitted
      = [[104, 105]] ∧
    (poll_log_file scenarioGlyphs (emptyFile.append [104, 105] 1) startState).state.last_file_pos
      = 2 ∧
    (poll_log_file scenarioGlyphs ((emptyFile.append [104, 105] 1).append [10] 2)
      (poll_log_file scenarioGlyphs (emptyFile.append [104, 105] 1) startState).state).emitted
      = [[]] ∧
    (poll_log_file scenarioGlyphs ((emptyFile.append [104, 105] 1).append [10] 2)
      (poll_log_file scenarioGlyphs (emptyFile.append [104, 105] 1)
        startState).state).state.chat.chat_log.map ChatEntry.original_line
      = [[104, 105]] := by
  decide

/-- C4 amended: with the cursor at the end of the file, when the bytes appended
are complete lines `body` followed by an unterminated line `tail` (not empty,
no newline, no NUL, at most 1023 bytes), the poll hands over the lines of
`body` as it would had `body` alone been appended and then, at once, `tail` as
a line of its own, and moves the cursor to the end of the file; after the
terminating newline is appended, the next poll hands over the empty string
only, which leaves the chat log as it was, and moves the cursor to the new end
of the file. -/
theorem poll_partial_line (glyphs : Nat → GMap) (file : FileState) (st : TailState)
    (body tail : List Nat) (mtime0 mtime1 mtime2 : Int)
    (hstat : file.stat_ok = true) (hopen : file.open_ok = true)
    (hpos : st.last_file_pos = file.st_size)
    (hbody : body = [] ∨ ∃ b : List Nat, body = b ++ [10])
    (hne : tail ≠ [])
    (hnl : ∀ c ∈ tail, c ≠ 10) (hnul : ∀ c ∈ tail, c ≠ 0) (hlen : tail.length ≤ 1023) :
    (poll_log_file glyphs (file.append (body ++ tail) mtime1) st).emitted =
      (poll_log_file glyphs (file.append body mtime0) st).emitted ++ [tail] ∧
    (poll_log_file glyphs (file.append (body ++ tail) mtime1) st).state.chat =
      add_chat_entry glyphs (poll_log_file glyphs (file.append body mtime0) st).state.chat
        tail ∧
    (poll_log_file glyphs (file.append (body ++ tail) mtime1) st).state.last_file_pos =
      (file.append (body ++ tail) mtime1).st_size ∧
    (poll_log_file glyphs ((file.append (body ++ tail) mtime1).append [10] mtime2)
      (poll_log_file glyphs (file.append (body ++ tail) mtime1) st).state).emitted = [[]] ∧
    (poll_log_file glyphs ((file.append (body ++ tail) mtime1).append [10] mtime2)
      (poll_log_file glyphs (file.append (body ++ tail) mtime1) st).state).state.chat =
      (poll_log_file glyphs (file.append (body ++ tail) mtime1) st).state.chat ∧
    (poll_log_file glyphs ((file.append (body ++ tail) mtime1).append [10] mtime2)
      (poll_log_file glyphs (file.append (body ++ tail) mtime1) st).state).state.last_file_pos =
      ((file.append (body ++ tail) mtime1).append [10] mtime2).st_size := by
  have hfirst := poll_appended_body_chunk glyphs file st body tail tail mtime0 mtime1 hstat
    hopen hpos hbody hne (fgets_scan_tail 1023 tail hnl hlen)
  rw [c_string_id tail hnul, trim_newline_tail tail hnl] at hfirst
  have hsecond := poll_appended_chunk glyphs (file.append (body ++ tail) mtime1)
    (poll_log_file glyphs (file.append (body ++ tail) mtime1) st).state [10] [10] mtime2
    (by simpa [FileState.append] using hstat) (by simpa [FileState.append] using hopen)
    (by rw [hfirst]) (by simp) (by simp [fgets_scan])
  have htrim : trim_newline (c_string [10]) = [] := by decide
  rw [htrim] at hsecond
  rw [hsecond, hfirst]
  refine ⟨rfl, rfl, rfl, rfl, ?_, rfl⟩
  simp [add_chat_entry, add_chat_entry_cap]

theorem poll_partial_line_witness :
    emptyFile.stat_ok = true ∧ emptyFile.open_ok = true ∧
    startState.last_file_pos = emptyFile.st_size ∧
    (([111, 107, 10] : List Nat) = [] ∨ ∃ b : List Nat, [111, 107, 10] = b ++ [10]) ∧
    ([104, 105] : List Nat) ≠ [] ∧
    (∀ c ∈ ([104, 105] : List Nat), c ≠ 10) ∧ (∀ c ∈ ([104, 105] : List Nat), c ≠ 0) ∧
    ([104, 105] : List Nat).length ≤ 1023 ∧
    (poll_log_file plainGlyphs (emptyFile.append ([111, 107, 10] ++ [104, 105]) 2)
      startState).emitted =
      (poll_log_file plainGlyphs (emptyFile.append [111, 107, 10] 1) startState).emitted
        ++ [[104, 105]] ∧
    (poll_log_file plainGlyphs (emptyFile.append ([111, 107, 10] ++ [104, 105]) 2)
      startState).state.chat =
      add_chat_entry plainGlyphs
        (poll_log_file plainGlyphs (emptyFile.append [111, 107, 10] 1) startState).state.chat
        [104, 105] ∧
    (poll_log_file plainGlyphs (emptyFile.append ([111, 107, 10] ++ [104, 105]) 2)
      startState).state.last_file_pos =
      (emptyFile.append ([111, 107, 10] ++ [104, 105]) 2).st_size ∧
    (poll_log_file plainGlyphs
      ((emptyFile.append ([111, 107, 10] ++ [104, 105]) 2).append [10] 3)
      (poll_log_file plainGlyphs (emptyFile.append ([111, 107, 10] ++ [104, 105]) 2)
        startState).state).emitted = [[]] ∧
    (poll_log_file plainGlyphs
      ((emptyFile.append ([111, 107, 10] ++ [104, 105]) 2).append [10] 3)
      (poll_log_file plainGlyphs (emptyFile.append ([111, 107, 10] ++ [104, 105]) 2)
        startState).state).state.chat =
      (poll_log_file plainGlyphs (emptyFile.append ([111, 107, 10] ++ [104, 105]) 2)
        startState).state.chat ∧
    (poll_log_file plainGlyphs
      ((emptyFile.append ([111, 107, 10] ++ [104, 105]) 2).append [10] 3)
      (poll_log_file plainGlyphs (emptyFile.append ([111, 107, 10] ++ [104, 105]) 2)
        startState).state).state.last_file_pos =
      ((emptyFile.append ([111, 107, 10] ++ [104, 105]) 2).append [10] 3).st_size :=
  ⟨rfl, rfl, by decide, Or.inr ⟨[111, 107], rfl⟩, by decide, by decide, by decide, by decide,
    poll_partial_line plainGlyphs emptyFile startState [111, 107, 10] [104, 105] 1 2 3 rfl rfl
      (by decide) (Or.inr ⟨[111, 107], rfl⟩) (by decide) (by decide) (by decide) (by decide)⟩

/-- C5: a poll that directly follows another poll of the same unchanged file
hands no line to `add_chat_entry` and leaves every global (cursor, chat log,
rate) as the first poll left it; and the first poll after the cursor was seeded
at end of file with the modification time of the file emits no line and changes
nothing either. -/
theorem poll_twice_idle (glyphs : Nat → GMap) (file : FileState) (st : TailState) :
    (poll_log_file glyphs file (poll_log_file glyphs file st).state).emitted = [] ∧
    (poll_log_file glyphs file (poll_log_file glyphs file st).state).state =
      (poll_log_file glyphs file st).state ∧
    (poll_log_file glyphs file (attach file st)).emitted = [] ∧
    (poll_log_file glyphs file (attach file st)).state = attach file st := by
  have hattach : poll_log_file glyphs file (attach file st) =
      { state := attach file st, emitted := [] } :=
    poll_fast_path glyphs file (attach file st) ⟨le_refl _, le_refl _⟩
  have hsecond : poll_log_file glyphs file (poll_log_file glyphs file st).state =
      { state := (poll_log_file glyphs file st).state, emitted := [] } := by
    by_cases hstat : file.stat_ok = false
    · simp [poll_log_file, hstat]
    · by_cases hfast : file.st_mtime ≤ st.last_mod_time ∧ file.st_size ≤ st.last_file_pos
      · rw [poll_fast_path glyphs file st hfast]
        exact poll_fast_path glyphs file st hfast
      · by_cases hopen : file.open_ok = false
        · simp [poll_log_file, hstat, hfast, hopen]
        · have hs : file.stat_ok = true := by simpa using hstat
          have ho : file.open_ok = true := by simpa using hopen
          obtain ⟨h1, h2⟩ := poll_cursor_after glyphs file st hs ho hfast
          exact poll_fast_path glyphs file _ ⟨le_of_eq h1.symm, h2⟩
  exact ⟨by rw [hsecond], by rw [hsecond], by rw [hattach], by rw [hattach]⟩

/-- C6, as the code behaves: appending the empty line (a lone newline) and
polling adds no chat entry; appending a line of 1024 letters and its newline
and polling hands two strings to `add_chat_entry`, the first 1023 letters and
the last letter, and adds two chat entries; appending the bytes 'a', NUL, 'b'
and a newline hands over the string "a". -/
theorem appended_line_not_one_entry :
    (poll_log_file scenarioGlyphs (emptyFile.append ([] ++ [10]) 1) startState).emitted
      = [[]] ∧
    (poll_log_file scenarioGlyphs (emptyFile.append ([] ++ [10]) 1)
      startState).state.chat.chat_log_size = 0 ∧
    (poll_log_file scenarioGlyphs (emptyFile.append (List.replicate 1024 97 ++ [10]) 1)
      startState).emitted = [List.replicate 1023 97, [97]] ∧
    (poll_log_file scenarioGlyphs (emptyFile.append (List.replicate 1024 97 ++ [10]) 1)
      startState).state.chat.chat_log_size = 2 ∧
    (poll_log_file scenarioGlyphs (emptyFile.append ([97, 0, 98] ++ [10]) 1)
      startState).emitted = [[97]] := by
  set_option maxRecDepth 100000 in decide

/-- C6 amended: with the cursor at the end of the file, for every line `L` that
is not empty, has no newline and no NUL byte and is at most 1022 bytes long,
appending `L` and one newline and then polling hands exactly one string to
`add_chat_entry`, `L` itself; the chat log is `add_chat_entry` of the old one
on `L`, its newest entry has `original_line = L`, and the cursor is at the
new end of the file. -/
theorem poll_one_line (glyphs : Nat → GMap) (file : FileState) (st : TailState)
    (L : List Nat) (mtime : Int)
    (hstat : file.stat_ok = true) (hopen : file.open_ok = true)
    (hpos : st.last_file_pos = file.st_size) (hne : L ≠ [])
    (hnl : ∀ c ∈ L, c ≠ 10) (hnul : ∀ c ∈ L, c ≠ 0) (hlen : L.length ≤ 1022) :
    (poll_log_file glyphs (file.append (L ++ [10]) mtime) st).emitted = [L] ∧
    (poll_log_file glyphs (file.append (L ++ [10]) mtime) st).state.chat =
      add_chat_entry glyphs st.chat L ∧
    ((poll_log_file glyphs (file.append (L ++ [10]) mtime) st).state.chat.chat_log.getLast?).map
      ChatEntry.original_line = some L ∧
    (poll_log_file glyphs (file.append (L ++ [10]) mtime) st).state.last_file_pos =
      (file.append (L ++ [10]) mtime).st_size := by
  have hscan : fgets_scan 1023 (L ++ [10]) = (L ++ [10], []) :=
    fgets_scan_line 1023 L [] hnl (by omega)
  have hc : c_string (L ++ [10]) = L ++ [10] := by
    apply c_string_id
    intro c hc
    rcases List.mem_append.mp hc with h | h
    · exact hnul c h
    · rw [List.mem_singleton.mp h]; decide
  have h := poll_appended_chunk glyphs file st (L ++ [10]) (L ++ [10]) mtime hstat hopen hpos
    (by simp) hscan
  rw [hc, trim_newline_line] at h
  rw [h]
  exact ⟨rfl, rfl, add_chat_entry_last glyphs st.chat L hne, rfl⟩

theorem poll_one_line_witness :
    emptyFile.stat_ok = true ∧ emptyFile.open_ok = true ∧
    startState.last_file_pos = emptyFile.st_size ∧ ([104, 105] : List Nat) ≠ [] ∧
    (∀ c ∈ ([104, 105] : List Nat), c ≠ 10) ∧ (∀ c ∈ ([104, 105] : List Nat), c ≠ 0) ∧
    ([104, 105] : List Nat).length ≤ 1022 ∧
    (poll_log_file plainGlyphs (emptyFile.append ([104, 105] ++ [10]) 1) startState).emitted
      = [[104, 105]] ∧
    (poll_log_file plainGlyphs (emptyFile.append ([104, 105] ++ [10]) 1) startState).state.chat =
      add_chat_entry plainGlyphs startState.chat [104, 105] ∧
    ((poll_log_file plainGlyphs (emptyFile.append ([104, 105] ++ [10]) 1)
      startState).state.chat.chat_log.getLast?).map ChatEntry.original_line
      = some [104, 105] ∧
    (poll_log_file plainGlyphs (emptyFile.append ([104, 105] ++ [10]) 1)
      startState).state.last_file_pos = (emptyFile.append ([104, 105] ++ [10]) 1).st_size :=
  ⟨rfl, rfl, by decide, by decide, by decide, by decide, by decide,
    poll_one_line plainGlyphs emptyFile startState [104, 105] 1 rfl rfl
      (by decide) (by decide) (by decide) (by decide) (by decide)⟩
/-! ## Claims on rendering -/

/-- C10, as the code behaves: at the binary32 value `RATE = 16777220`
(4194305 times 4, which 838860 presses of the 'e' key reach from 20) and the
non-negative `rand()` value 16777219, the remainder 16777219 is not a `float`
and its conversion rounds up to 16777220, so the offset is 8388610, equal to
`RATE/2` and not below it. -/
theorem jitter_offset_reaches_half :
    (16777220 : ℚ) = ((4194305 : Int) : ℚ) * (2 : ℚ) ^ (2 : ℤ) ∧ |(4194305 : Int)| < 2 ^ 24 ∧
    RateReachable 16777220 ∧
    (1 : ℚ) ≤ 16777220 ∧ (0 : Int) ≤ 16777219 ∧
    jitter_offset 16777220 16777219 = 8388610 ∧
    ¬ ((jitter_offset 16777220 16777219 : ℚ) < (16777220 : ℚ) / 2) := by
  have hoff : jitter_offset 16777220 16777219 = 8388610 := by
    have hk : truncQ (16777220 : ℚ) = 16777220 := by
      unfold truncQ
      rw [if_pos (by norm_num)]
      exact Int.floor_eq_iff.mpr (by norm_num)
    have hm : Int.tmod 16777219 16777220 = 16777219 := by decide
    have ha : i2f 16777219 = 16777220 := by
      unfold i2f
      exact_mod_cast f32_two_pow_24_add_three
    have hh : f32 ((16777220 : ℚ) / 2) = 8388610 := by
      have := f32_int_exact 8388610 (by norm_num)
      norm_num at this ⊢
      exact this
    have hd : f32 ((16777220 : ℚ) - 8388610) = 8388610 := by
      have := f32_int_exact 8388610 (by norm_num)
      norm_num at this ⊢
      exact this
    have ht : truncQ (8388610 : ℚ) = 8388610 := by
      unfold truncQ
      rw [if_pos (by norm_num)]
      exact Int.floor_eq_iff.mpr (by norm_num)
    unfold jitter_offset
    rw [hk, hm, ha, hh, hd, ht]
  have hreach : RateReachable 16777220 := by
    have := rate_reachable_bumps 838860
    have hval : RATE_INIT + ((838860 : Nat) : ℚ) * RATE_RESET = 16777220 := by
      norm_num [RATE_INIT, RATE_RESET]
    rw [hval] at this
    exact this
  refine ⟨by norm_num, by norm_num, hreach, by norm_num, by norm_num, hoff, ?_⟩
  rw [hoff]
  norm_num

/-- C10 amended: for every binary32 value `RATE` (an integer of magnitude below
`2 ^ 24` times a power of two) with `1 ≤ RATE < 16777220` and all non-negative
values `vx`, `vy` returned by `rand()`, the offsets `off_x` and `off_y`
computed in `render_gmap` are integers in the range `-RATE/2 ≤ off < RATE/2`. -/
theorem jitter_offsets_in_range (RATE : ℚ) (M e vx vy : Int)
    (hrep : RATE = (M : ℚ) * (2 : ℚ) ^ e) (hM : |M| < 2 ^ 24)
    (hlo : 1 ≤ RATE) (hhi : RATE < 16777220) (hx : 0 ≤ vx) (hy : 0 ≤ vy) :
    (-(RATE / 2) ≤ (jitter_offset RATE vx : ℚ) ∧ (jitter_offset RATE vx : ℚ) < RATE / 2) ∧
    (-(RATE / 2) ≤ (jitter_offset RATE vy : ℚ) ∧ (jitter_offset RATE vy : ℚ) < RATE / 2) :=
  ⟨jitter_offset_bounds RATE M e vx hrep hM hlo hhi hx,
    jitter_offset_bounds RATE M e vy hrep hM hlo hhi hy⟩

theorem jitter_offsets_in_range_witness :
    (20 : ℚ) = ((5 : Int) : ℚ) * (2 : ℚ) ^ (2 : ℤ) ∧ |(5 : Int)| < 2 ^ 24 ∧
    (1 : ℚ) ≤ 20 ∧ (20 : ℚ) < 16777220 ∧ (0 : Int) ≤ 13 ∧ (0 : Int) ≤ 27 ∧
    (-((20 : ℚ) / 2) ≤ (jitter_offset 20 13 : ℚ) ∧ (jitter_offset 20 13 : ℚ) < (20 : ℚ) / 2) ∧
    (-((20 : ℚ) / 2) ≤ (jitter_offset 20 27 : ℚ) ∧ (jitter_offset 20 27 : ℚ) < (20 : ℚ) / 2) :=
  ⟨by norm_num, by decide, by decide, by decide, by decide, by decide,
    jitter_offsets_in_range 20 5 2 13 27 (by norm_num) (by decide) (by decide) (by decide)
      (by decide) (by decide)⟩
/-! ## Further claims on wrap_text -/

/-- C11: for every text that consists of exactly one word, with any spaces, tabs
or newlines before and after it, whose pixel width exceeds `max_width_pixels`,
`wrap_text` returns exactly one line and that line is the word itself. -/
theorem wide_single_word_one_line (glyphs : Nat → GMap) (pre word post : CStr)
    (max_width_pixels : Int)
    (hpre : ∀ c ∈ pre, isDelim c = true) (hpost : ∀ c ∈ post, isDelim c = true)
    (hne : word ≠ []) (hword : ∀ c ∈ word, isDelim c = false)
    (_hwide : pixel_width glyphs word > max_width_pixels) :
    wrap_text glyphs (pre ++ word ++ post) max_width_pixels = [word] :=
  wrap_text_single_word glyphs (pre ++ word ++ post) word max_width_pixels
    (inputWords_single pre word post hpre hpost hne hword) hne

theorem wide_single_word_one_line_witness :
    (∀ c ∈ ([32, 9] : CStr), isDelim c = true) ∧ (∀ c ∈ ([10] : CStr), isDelim c = true) ∧
    ([65, 65, 65] : CStr) ≠ [] ∧ (∀ c ∈ ([65, 65, 65] : CStr), isDelim c = false) ∧
    pixel_width scenarioGlyphs [65, 65, 65] > 25 ∧
    wrap_text scenarioGlyphs ([32, 9] ++ [65, 65, 65] ++ [10]) 25 = [[65, 65, 65]] :=
  ⟨by decide, by decide, by decide, by decide, by decide,
    wide_single_word_one_line scenarioGlyphs [32, 9] [65, 65, 65] [10] 25
      (by decide) (by decide) (by decide) (by decide) (by decide)⟩

/-- C12, as the code behaves: a text without a word (the empty text, or only
spaces and tabs) has an empty joined string, of pixel width 0 within the budget
100, yet `wrap_text` returns no line at all, not the one line the claim
announces. -/
theorem wordless_text_no_line :
    pixel_width scenarioGlyphs (joinWords (inputWords [])) ≤ 100 ∧
    wrap_text scenarioGlyphs [] 100 = [] ∧
    wrap_text scenarioGlyphs [] 100 ≠ [joinWords (inputWords [])] ∧
    pixel_width scenarioGlyphs (joinWords (inputWords [32, 9])) ≤ 100 ∧
    wrap_text scenarioGlyphs [32, 9] 100 = [] ∧
    wrap_text scenarioGlyphs [32, 9] 100 ≠ [joinWords (inputWords [32, 9])] := by
  decide

/-- C12 amended: for every text and budget, every output line `B` of
`wrap_text` that follows a line `A` starts with a word that did not fit on `A`:
`pixel_width A + SPACE_ADVANCE + pixel_width (first word of B)` exceeds
`max_width_pixels`; consequently a text with at least one word whose words
joined by single spaces have pixel width within the budget wraps to exactly one
line, that joined string; a text without any word wraps to no line; "A A" with
advance 10 and budget 100 gives the single line "A A". -/
theorem wrap_text_greedy (glyphs : Nat → GMap) (text : CStr) (max_width_pixels : Int) :
    (∀ (pre post : List CStr) (A B : CStr),
      wrap_text glyphs text max_width_pixels = pre ++ A :: B :: post →
      pixel_width glyphs A + SPACE_ADVANCE + pixel_width glyphs (firstWord B)
        > max_width_pixels) ∧
    (inputWords text ≠ [] →
      pixel_width glyphs (joinWords (inputWords text)) ≤ max_width_pixels →
      wrap_text glyphs text max_width_pixels = [joinWords (inputWords text)]) ∧
    (inputWords text = [] → wrap_text glyphs text max_width_pixels = []) ∧
    wrap_text scenarioGlyphs [65, 32, 65] 100 = [[65, 32, 65]] := by
  refine ⟨?_, wrap_text_one_line glyphs text max_width_pixels,
    wrap_text_no_word glyphs text max_width_pixels, by decide⟩
  intro pre post A B hsplit
  have hchain := wrap_text_chain glyphs text max_width_pixels
  rw [hsplit, List.chain'_append] at hchain
  exact (List.chain'_cons.mp hchain.2.1).1

theorem wrap_text_greedy_witness :
    wrap_text scenarioGlyphs [65, 32, 65, 65, 65, 32, 65, 32, 65, 65] 40 =
      [[65]] ++ [65, 65, 65] :: [65, 32, 65, 65] :: [] ∧
    pixel_width scenarioGlyphs [65, 65, 65] + SPACE_ADVANCE +
      pixel_width scenarioGlyphs (firstWord [65, 32, 65, 65]) > 40 ∧
    inputWords [65, 32, 65] ≠ [] ∧
    pixel_width scenarioGlyphs (joinWords (inputWords [65, 32, 65])) ≤ 100 ∧
    wrap_text scenarioGlyphs [65, 32, 65] 100 = [joinWords (inputWords [65, 32, 65])] ∧
    inputWords [32, 9, 10] = [] ∧
    wrap_text scenarioGlyphs [32, 9, 10] 100 = [] :=
  ⟨by decide,
    (wrap_text_greedy scenarioGlyphs [65, 32, 65, 65, 65, 32, 65, 32, 65, 65] 40).1
      [[65]] [] [65, 65, 65] [65, 32, 65, 65] (by decide),
    by decide, by decide,
    (wrap_text_greedy scenarioGlyphs [65, 32, 65] 100).2.1 (by decide) (by decide),
    by decide,
    (wrap_text_greedy scenarioGlyphs [32, 9, 10] 100).2.2.1 (by decide)⟩

/-! ## Claim on the jitter rate -/

/-- C13: starting from `RATE = 20`, after any sequence of the operations that
write `RATE` (a glyph draw in `render_gmap`, a reset by `poll_log_file`, the
'e' key), `RATE` is greater than 1, so `(int)RATE` is at least 1 and the
divisor of `rand() % (int)RATE` in a call of `render_gmap` made then is never
zero. -/
theorem rate_divisor_never_zero (r : ℚ) (h : RateReachable r) :
    1 < r ∧ 1 ≤ truncQ r ∧ truncQ r ≠ 0 ∧
    ∀ (glyphs : Nat → GMap) (c1 c2 : Color) (rand : Nat → Int) (ch : Nat) (x y : Int)
      (colon_flag : Bool) (js : JitterState), js.RATE = r →
      truncQ (render_gmap glyphs c1 c2 rand ch x y colon_flag js).1.RATE ≠ 0 := by
  have hr := rate_reachable_gt_one r h
  have ht := truncQ_ge_one r (le_of_lt hr)
  refine ⟨hr, ht, by omega, ?_⟩
  intro glyphs c1 c2 rand ch x y colon_flag js hjs
  have hnext : RateReachable (render_gmap glyphs c1 c2 rand ch x y colon_flag js).1.RATE := by
    subst hjs
    exact Relation.ReflTransGen.tail h (RateStep.draw glyphs c1 c2 rand ch x y colon_flag js)
  have := truncQ_ge_one _ (le_of_lt (rate_reachable_gt_one _ hnext))
  omega

theorem rate_divisor_never_zero_witness :
    RateReachable sampleRatePolled ∧
    1 < sampleRatePolled ∧ 1 ≤ truncQ sampleRatePolled ∧ truncQ sampleRatePolled ≠ 0 ∧
    ∀ (glyphs : Nat → GMap) (c1 c2 : Color) (rand : Nat → Int) (ch : Nat) (x y : Int)
      (colon_flag : Bool) (js : JitterState), js.RATE = sampleRatePolled →
      truncQ (render_gmap glyphs c1 c2 rand ch x y colon_flag js).1.RATE ≠ 0 :=
  ⟨Relation.ReflTransGen.tail
      (Relation.ReflTransGen.tail
        (Relation.ReflTransGen.single
          (RateStep.draw scenarioGlyphs c1_init c2_init sampleRand 65 0 0 false
            { RATE := RATE_INIT, rand_next := 0 }))
        (RateStep.bump sampleRateDrawn))
      (RateStep.poll scenarioGlyphs (emptyFile.append [104, 105, 10] 1)
        { chat := empty_chat_log, last_file_pos := 0, last_mod_time := 0,
          RATE := key_e sampleRateDrawn }),
    rate_divisor_never_zero sampleRatePolled
      (Relation.ReflTransGen.tail
        (Relation.ReflTransGen.tail
          (Relation.ReflTransGen.single
            (RateStep.draw scenarioGlyphs c1_init c2_init sampleRand 65 0 0 false
              { RATE := RATE_INIT, rand_next := 0 }))
          (RateStep.bump sampleRateDrawn))
        (RateStep.poll scenarioGlyphs (emptyFile.append [104, 105, 10] 1)
          { chat := empty_chat_log, last_file_pos := 0, last_mod_time := 0,
            RATE := key_e sampleRateDrawn }))⟩

end TC
